import Mathlib

/-!
Verification of the core of `unity-guid-rewriter` (src/src/main.rs).

The program has two passes:
* `make_mapping` walks a source tree, reads every `.meta` file, extracts its
  `guid` field from the single-document YAML hash, parses it as a 128-bit
  UUID, draws a fresh random UUID, and accumulates `(old, new)` pairs where
  both sides are rendered in the 32-hex-character `simple` form.
* `apply_mapping` walks the working tree, skips files whose name ends with an
  ignored suffix, reads each remaining regular file, and for every mapping
  entry finds every non-overlapping occurrence of `old` (`str::match_indices`)
  and, when `--force` is given, overwrites it in place with `new` (same
  length, 32), finally writing the file back.

File contents are modelled as `List Char`; the byte-level UTF-8 argument for
the in-place overwrite is modelled separately on `List Nat` at the end of the
file.  External collaborators (walkdir, yaml_rust, the uuid crate, the random
generator) are not part of this repository; where a claim depends on them
they are modelled from the spec, and such definitions say so in their doc
comment.
-/

namespace GuidRewriter

/-- Constant `UUID_STR_LEN` of src/src/main.rs line 11. -/
def UUID_STR_LEN : Nat := 32

/-- Decidability of `l₁ <+: l₂` via the executable `List.isPrefixOf`, so that
statements about the model evaluate with `decide`. -/
instance decPrefixChar (l₁ l₂ : List Char) : Decidable (l₁ <+: l₂) :=
  decidable_of_iff _ List.isPrefixOf_iff_prefix

/-- Scanner of the rewrite loop of `apply_mapping` (src/src/main.rs lines
145-170): `contents.match_indices(src)` yields the leftmost, non-overlapping
occurrences of `src`, and each is overwritten in place by `dst` (the code
slices a constant `UUID_STR_LEN = 32` window, and both `src` and `dst` have
length 32 wherever the program calls this).  `repGo src dst c k` scans `c`
while `k` characters of an already-rewritten occurrence remain to be skipped;
the skipped characters were replaced by the emitted `dst`. -/
def repGo (src dst : List Char) : List Char → Nat → List Char
  | [], _ => []
  | _ :: cs, k + 1 => repGo src dst cs k
  | c :: cs, 0 =>
    if src ≠ [] ∧ src <+: (c :: cs) then dst ++ repGo src dst cs (src.length - 1)
    else c :: repGo src dst cs 0

/-- In-place rewrite of every non-overlapping occurrence of `src` by `dst`,
as performed for one mapping entry by src/src/main.rs lines 145-170. -/
def replaceAll (src dst c : List Char) : List Char := repGo src dst c 0

/-- Occurrence counter matching `indices.len()` of src/src/main.rs line 148:
the number of leftmost non-overlapping occurrences found by
`match_indices`. -/
def cntGo (pat : List Char) : List Char → Nat → Nat
  | [], _ => 0
  | _ :: cs, k + 1 => cntGo pat cs k
  | c :: cs, 0 =>
    if pat ≠ [] ∧ pat <+: (c :: cs) then cntGo pat cs (pat.length - 1) + 1
    else cntGo pat cs 0

/-- Number of non-overlapping occurrences of `pat` in `c`
(`contents.match_indices(pat).count()`). -/
def countOcc (pat c : List Char) : Nat := cntGo pat c 0

/-- `pat` occurs at position `i` of `c`; `str::match_indices` reports exactly
the positions satisfying this. -/
def OccursAt (pat c : List Char) (i : Nat) : Prop := pat <+: c.drop i

instance (pat c : List Char) (i : Nat) : Decidable (OccursAt pat c i) :=
  decPrefixChar _ _

/-! ### Unfolding equations for `replaceAll` and `countOcc` -/

theorem repGo_eq_replaceAll (src dst : List Char) :
    ∀ (cs : List Char) (k : Nat), repGo src dst cs k = replaceAll src dst (cs.drop k) := by
  intro cs
  induction cs with
  | nil => intro k; simp [repGo, replaceAll]
  | cons c cs ih =>
    intro k
    cases k with
    | zero => rfl
    | succ k => simpa [repGo] using ih k

theorem replaceAll_nil (src dst : List Char) : replaceAll src dst [] = [] := rfl

theorem replaceAll_pos {src : List Char} (dst : List Char) {c : Char} {cs : List Char}
    (h : src ≠ []) (hp : src <+: (c :: cs)) :
    replaceAll src dst (c :: cs) = dst ++ replaceAll src dst ((c :: cs).drop src.length) := by
  have h1 : replaceAll src dst (c :: cs) = dst ++ repGo src dst cs (src.length - 1) := by
    simp only [replaceAll, repGo]
    rw [if_pos ⟨h, hp⟩]
  rw [h1, repGo_eq_replaceAll]
  have : (c :: cs).drop src.length = cs.drop (src.length - 1) := by
    cases hs : src with
    | nil => exact absurd hs h
    | cons a as => simp
  rw [this]

theorem replaceAll_neg {src : List Char} (dst : List Char) {c : Char} {cs : List Char}
    (h : ¬ (src ≠ [] ∧ src <+: (c :: cs))) :
    replaceAll src dst (c :: cs) = c :: replaceAll src dst cs := by
  simp only [replaceAll, repGo]
  rw [if_neg h]

theorem cntGo_eq_countOcc (pat : List Char) :
    ∀ (cs : List Char) (k : Nat), cntGo pat cs k = countOcc pat (cs.drop k) := by
  intro cs
  induction cs with
  | nil => intro k; simp [cntGo, countOcc]
  | cons c cs ih =>
    intro k
    cases k with
    | zero => rfl
    | succ k => simpa [cntGo] using ih k

theorem countOcc_nil (pat : List Char) : countOcc pat [] = 0 := rfl

theorem countOcc_pos {pat : List Char} {c : Char} {cs : List Char}
    (h : pat ≠ []) (hp : pat <+: (c :: cs)) :
    countOcc pat (c :: cs) = countOcc pat ((c :: cs).drop pat.length) + 1 := by
  have h1 : countOcc pat (c :: cs) = cntGo pat cs (pat.length - 1) + 1 := by
    simp only [countOcc, cntGo]
    rw [if_pos ⟨h, hp⟩]
  rw [h1, cntGo_eq_countOcc]
  have : (c :: cs).drop pat.length = cs.drop (pat.length - 1) := by
    cases hs : pat with
    | nil => exact absurd hs h
    | cons a as => simp
  rw [this]

theorem countOcc_neg {pat : List Char} {c : Char} {cs : List Char}
    (h : ¬ (pat ≠ [] ∧ pat <+: (c :: cs))) :
    countOcc pat (c :: cs) = countOcc pat cs := by
  simp only [countOcc, cntGo]
  rw [if_neg h]

/-! ### Structural lemmas about the greedy scan -/

/-- Strong induction on the length of the scanned content. -/
theorem list_len_ind {P : List Char → Prop}
    (step : ∀ c, (∀ c', c'.length < c.length → P c') → P c) : ∀ c, P c := by
  have H : ∀ n (c : List Char), c.length ≤ n → P c := by
    intro n
    induction n with
    | zero =>
      intro c hc
      exact step c (fun c' hc' => absurd (Nat.lt_of_lt_of_le hc' hc) (Nat.not_lt_zero _))
    | succ n ih =>
      intro c hc
      exact step c (fun c' hc' => ih c' (by omega))
  exact fun c => H c.length c le_rfl

theorem occursAt_length {pat c : List Char} {i : Nat} (hpat : pat ≠ [])
    (h : OccursAt pat c i) : i + pat.length ≤ c.length := by
  have h1 : pat.length ≤ (c.drop i).length := h.length_le
  have h2 : 0 < pat.length := List.length_pos.mpr hpat
  simp only [List.length_drop] at h1
  omega

theorem occursAt_shift {pat : List Char} {a : Char} {cs : List Char} {j : Nat} :
    OccursAt pat (a :: cs) (j + 1) ↔ OccursAt pat cs j := by
  simp [OccursAt]

/-- A prefix shorter than `m` characters agrees with `take m`. -/
theorem take_of_prefix {pat x : List Char} (h : pat <+: x) {m : Nat} (hm : m ≤ pat.length) :
    pat.take m = x.take m := by
  obtain ⟨t, rfl⟩ := h
  rw [List.take_append_of_le_length hm]

/-- Greedy decomposition: either `src` never occurs and the scan is the
identity, or there is a first occurrence at `k` and the scan replaces it and
recurses after it. -/
theorem replaceAll_decomp (src dst : List Char) (hsrc : src ≠ []) :
    ∀ c, ((∀ j, ¬ OccursAt src c j) ∧ replaceAll src dst c = c) ∨
      (∃ k, (∀ j, j < k → ¬ OccursAt src c j) ∧ OccursAt src c k ∧
        replaceAll src dst c = c.take k ++ dst ++ replaceAll src dst (c.drop (k + src.length))) := by
  intro c
  induction c with
  | nil =>
    left
    constructor
    · intro j h
      simp only [OccursAt, List.drop_nil] at h
      exact hsrc (List.prefix_nil.mp h)
    · exact replaceAll_nil src dst
  | cons a cs ih =>
    by_cases hp : src <+: (a :: cs)
    · right
      refine ⟨0, fun j hj => absurd hj (Nat.not_lt_zero _), ?_, ?_⟩
      · simpa [OccursAt] using hp
      · rw [replaceAll_pos dst hsrc hp]
        simp
    · cases ih with
      | inl h =>
        left
        refine ⟨?_, ?_⟩
        · intro j
          cases j with
          | zero => simpa [OccursAt] using hp
          | succ j => rw [occursAt_shift]; exact h.1 j
        · rw [replaceAll_neg dst (fun hc => hp hc.2), h.2]
      | inr h =>
        obtain ⟨k, hki, hk, heq⟩ := h
        right
        refine ⟨k + 1, ?_, ?_, ?_⟩
        · intro j hj
          cases j with
          | zero => simpa [OccursAt] using hp
          | succ j => rw [occursAt_shift]; exact hki j (by omega)
        · rw [occursAt_shift]; exact hk
        · rw [replaceAll_neg dst (fun hc => hp hc.2), heq]
          have hd : (a :: cs).drop (k + 1 + src.length) = cs.drop (k + src.length) := by
            have : k + 1 + src.length = (k + src.length) + 1 := by omega
            rw [this]
            rfl
          rw [hd]
          rfl

/-- If `src` does not occur in the first `k` positions, the scan copies the
first `k` characters verbatim and continues on the rest. -/
theorem replaceAll_skip (src dst : List Char) :
    ∀ (k : Nat) (c : List Char), (∀ j, j < k → ¬ OccursAt src c j) →
      replaceAll src dst c = c.take k ++ replaceAll src dst (c.drop k) := by
  intro k
  induction k with
  | zero => intro c _; simp
  | succ k ih =>
    intro c hc
    cases c with
    | nil => simp [replaceAll_nil]
    | cons a cs =>
      have h0 : ¬ src <+: (a :: cs) := by
        have := hc 0 (Nat.succ_pos k)
        simpa [OccursAt] using this
      rw [replaceAll_neg dst (fun hcond => h0 hcond.2)]
      have := ih cs (fun j hj => by
        have := hc (j + 1) (by omega)
        rwa [occursAt_shift] at this)
      rw [this]
      rfl

/-- If `pat` does not occur in the first `k` positions, the greedy count is
unchanged by dropping them. -/
theorem countOcc_skip (pat : List Char) :
    ∀ (k : Nat) (c : List Char), (∀ j, j < k → ¬ OccursAt pat c j) →
      countOcc pat c = countOcc pat (c.drop k) := by
  intro k
  induction k with
  | zero => intro c _; rfl
  | succ k ih =>
    intro c hc
    cases c with
    | nil => rfl
    | cons a cs =>
      have h0 : ¬ pat <+: (a :: cs) := by
        have := hc 0 (Nat.succ_pos k)
        simpa [OccursAt] using this
      rw [countOcc_neg (fun hcond => h0 hcond.2)]
      have := ih cs (fun j hj => by
        have := hc (j + 1) (by omega)
        rwa [occursAt_shift] at this)
      rw [this]
      rfl

/-- `NoOverlap x y` states that no nonempty proper suffix of `x` is equal to
the corresponding leading part of `y`: an occurrence of `y` can then never
begin strictly inside an occurrence of `x`. -/
def NoOverlap (x y : List Char) : Prop :=
  ∀ k, k < x.length → 0 < k → x.drop (x.length - k) ≠ y.take k

instance (x y : List Char) : Decidable (NoOverlap x y) := by
  unfold NoOverlap; infer_instance

/-- If a list shorter than `src` is a prefix of the scan's output, it is
either a prefix of the original content or it runs into an emitted copy of
`dst`. -/
theorem short_prefix_reflect {src dst t : List Char} (hsrc : src ≠ [])
    (hd : dst.length = src.length) (ht : t.length < src.length) (c : List Char)
    (h : t <+: replaceAll src dst c) :
    t <+: c ∨ ∃ q, q < t.length ∧ t.drop q = dst.take (t.length - q) := by
  cases replaceAll_decomp src dst hsrc c with
  | inl hno => rw [hno.2] at h; exact Or.inl h
  | inr hex =>
    obtain ⟨k, hki, hk, heq⟩ := hex
    rw [heq] at h
    have hkc : k + src.length ≤ c.length := occursAt_length hsrc hk
    have hck : (c.take k).length = k := by
      rw [List.length_take]; exact min_eq_left (by omega)
    by_cases hlen : t.length ≤ k
    · left
      have h1 : t = (c.take k ++ dst ++ replaceAll src dst (c.drop (k + src.length))).take
          t.length := List.prefix_iff_eq_take.mp h
      rw [List.append_assoc, List.take_append_of_le_length (by omega), List.take_take,
        min_eq_left hlen] at h1
      exact List.prefix_iff_eq_take.mpr h1
    · right
      refine ⟨k, by omega, ?_⟩
      have h1 : t = (c.take k ++ (dst ++ replaceAll src dst (c.drop (k + src.length)))).take
          t.length := by
        rw [← List.append_assoc]
        exact List.prefix_iff_eq_take.mp h
      have hlen2 : (c.take k).length ≤ t.length := by omega
      rw [List.take_append_eq_append_take, List.take_of_length_le hlen2, hck] at h1
      have h2 : t.drop k = (dst ++ replaceAll src dst (c.drop (k + src.length))).take
          (t.length - k) := by
        conv_lhs => rw [h1]
        rw [List.drop_left' hck]
      rwa [List.take_append_of_le_length (by omega)] at h2

/-- Same-length substitution preserves the content length (the load-bearing
fact behind the in-place rewrite of src/src/main.rs lines 161-170). -/
theorem length_replaceAll (src dst : List Char) (hlen : dst.length = src.length) :
    ∀ c, (replaceAll src dst c).length = c.length := by
  refine list_len_ind ?_
  intro c ih
  by_cases hsrc : src = []
  · subst hsrc
    cases c with
    | nil => rfl
    | cons a cs =>
      rw [replaceAll_neg dst (fun hc => hc.1 rfl)]
      have : cs.length < (a :: cs).length := by simp
      simp [ih cs this]
  · cases c with
    | nil => rfl
    | cons a cs =>
      by_cases hp : src <+: (a :: cs)
      · rw [replaceAll_pos dst hsrc hp]
        have hL : 0 < src.length := List.length_pos.mpr hsrc
        have hle : src.length ≤ (a :: cs).length := hp.length_le
        have hlt : ((a :: cs).drop src.length).length < (a :: cs).length := by
          simp only [List.length_drop]
          omega
        simp only [List.length_append, ih _ hlt, List.length_drop, hlen]
        omega
      · rw [replaceAll_neg dst (fun hc => hp hc.2)]
        have : cs.length < (a :: cs).length := by simp
        simp [ih cs this]

/-! ### Boundary analysis for occurrences -/

theorem countOcc_pos' {pat x : List Char} (h : pat ≠ []) (hp : pat <+: x) :
    countOcc pat x = countOcc pat (x.drop pat.length) + 1 := by
  cases x with
  | nil => exact absurd (List.prefix_nil.mp hp) h
  | cons a cs => exact countOcc_pos h hp

theorem countOcc_neg' {pat : List Char} {a : Char} {cs : List Char}
    (h : ¬ pat <+: (a :: cs)) : countOcc pat (a :: cs) = countOcc pat cs :=
  countOcc_neg (fun hc => h hc.2)

theorem replaceAll_pos' {src : List Char} (dst : List Char) {x : List Char}
    (h : src ≠ []) (hp : src <+: x) :
    replaceAll src dst x = dst ++ replaceAll src dst (x.drop src.length) := by
  cases x with
  | nil => exact absurd (List.prefix_nil.mp hp) h
  | cons a cs => exact replaceAll_pos dst h hp

theorem prefix_of_length_eq {pat xs R : List Char} (hlen : pat.length = xs.length)
    (h : pat <+: xs ++ R) : pat = xs := by
  have h1 : pat.take xs.length = (xs ++ R).take xs.length :=
    take_of_prefix h (le_of_eq hlen.symm)
  rw [List.take_left, List.take_of_length_le (le_of_eq hlen)] at h1
  exact h1

theorem prefix_eq_of_length_eq {p q x : List Char} (hp : p <+: x) (hq : q <+: x)
    (h : p.length = q.length) : p = q := by
  obtain ⟨t, rfl⟩ := hp
  exact (prefix_of_length_eq h.symm hq).symm

/-- An occurrence of `pat` that begins strictly inside a block `xs` (sitting
at the start of `xs ++ R`) forces a nonempty proper suffix of `xs` to agree
with the start of `pat`. -/
theorem prefix_overlap_left {xs pat R : List Char} {i : Nat}
    (hx : i < xs.length) (hplen : xs.length ≤ i + pat.length)
    (h : pat <+: (xs ++ R).drop i) : xs.drop i = pat.take (xs.length - i) := by
  rw [List.drop_append_of_le_length (le_of_lt hx)] at h
  have h1 : pat.take (xs.length - i) = (xs.drop i ++ R).take (xs.length - i) :=
    take_of_prefix h (by omega)
  rw [List.take_append_of_le_length (Nat.le_of_eq (List.length_drop i xs).symm)] at h1
  rw [List.take_of_length_le (Nat.le_of_eq (List.length_drop i xs))] at h1
  exact h1.symm

/-- NoOverlap instantiated at an overlap produced by `prefix_overlap_left`. -/
theorem noOverlap_absurd {x y : List Char} (hno : NoOverlap x y) {i : Nat}
    (h0 : 0 < i) (hi : i < x.length) (h : x.drop i = y.take (x.length - i)) : False := by
  have := hno (x.length - i) (by omega) (by omega)
  have heq : x.length - (x.length - i) = i := by omega
  rw [heq] at this
  exact this h

/-! ### Main per-entry lemmas -/

/-- After rewriting, no occurrence of `src` remains anywhere, provided `src`
and `dst` do not alias each other. -/
theorem replaceAll_no_src {src dst : List Char} (hsrc : src ≠ [])
    (hd : dst.length = src.length) (hneq : src ≠ dst)
    (hds : NoOverlap dst src) (hsd : NoOverlap src dst) :
    ∀ c i, ¬ OccursAt src (replaceAll src dst c) i := by
  refine list_len_ind ?_
  intro c ih i h
  cases c with
  | nil =>
    rw [replaceAll_nil] at h
    simp only [OccursAt, List.drop_nil] at h
    exact hsrc (List.prefix_nil.mp h)
  | cons a cs =>
    by_cases hp : src <+: (a :: cs)
    · rw [replaceAll_pos dst hsrc hp] at h
      have hlt : ((a :: cs).drop src.length).length < (a :: cs).length := by
        have := List.length_pos.mpr hsrc
        simp only [List.length_drop]
        simp only [List.length_cons]
        omega
      rcases Nat.eq_zero_or_pos i with h0 | h0
      · subst h0
        simp only [OccursAt, List.drop_zero] at h
        exact hneq (prefix_of_length_eq hd.symm h)
      · by_cases hiL : i < dst.length
        · exact noOverlap_absurd hds h0 hiL (prefix_overlap_left hiL (by omega) h)
        · have hdrop : (dst ++ replaceAll src dst ((a :: cs).drop src.length)).drop i =
              (replaceAll src dst ((a :: cs).drop src.length)).drop (i - dst.length) := by
            rw [List.drop_append_eq_append_drop, List.drop_eq_nil_of_le (by omega)]
            rfl
          rw [OccursAt, hdrop] at h
          exact ih _ hlt _ h
    · rw [replaceAll_neg dst (fun hc => hp hc.2)] at h
      cases i with
      | succ i =>
        rw [occursAt_shift] at h
        exact ih cs (by simp) i h
      | zero =>
        simp only [OccursAt, List.drop_zero] at h
        cases hs : src with
        | nil => exact hsrc hs
        | cons s0 t =>
          subst hs
          rw [List.cons_prefix_cons] at h
          obtain ⟨rfl, ht⟩ := h
          have htlen : t.length < (s0 :: t).length := by simp
          cases short_prefix_reflect hsrc hd htlen cs ht with
          | inl htc => exact hp (List.cons_prefix_cons.mpr ⟨rfl, htc⟩)
          | inr hq =>
            obtain ⟨q, hq1, hq2⟩ := hq
            refine noOverlap_absurd hsd (i := q + 1) (by omega)
              (by simp; omega) ?_
            have hdropt : (s0 :: t).drop (q + 1) = t.drop q := rfl
            have hlen2 : (s0 :: t).length - (q + 1) = t.length - q := by simp
            rw [hdropt, hlen2]
            exact hq2

/-- Occurrences of an unrelated pattern `pat` sit at exactly the same byte
offsets before and after the rewrite of one entry: the same-length in-place
substitution shifts nothing, and under the no-aliasing hypotheses it neither
destroys nor creates occurrences of `pat`. -/
theorem occursAt_replaceAll_iff {src dst pat : List Char} (hsrc : src ≠ [])
    (hd : dst.length = src.length) (hplen : pat.length = src.length)
    (hps : pat ≠ src) (hpd : pat ≠ dst)
    (hsp : NoOverlap src pat) (hpso : NoOverlap pat src)
    (hdp : NoOverlap dst pat) (hpdo : NoOverlap pat dst) :
    ∀ c i, OccursAt pat (replaceAll src dst c) i ↔ OccursAt pat c i := by
  have hpat : pat ≠ [] := by
    intro h
    rw [h] at hplen
    exact hsrc (List.length_eq_zero.mp hplen.symm)
  refine list_len_ind ?_
  intro c ih i
  cases c with
  | nil => rw [replaceAll_nil]
  | cons a cs =>
    by_cases hp : src <+: (a :: cs)
    · rw [replaceAll_pos dst hsrc hp]
      have hlt : ((a :: cs).drop src.length).length < (a :: cs).length := by
        have := List.length_pos.mpr hsrc
        simp only [List.length_drop, List.length_cons]
        omega
      rcases Nat.eq_zero_or_pos i with h0 | h0
      · subst h0
        apply iff_of_false
        · intro h
          simp only [OccursAt, List.drop_zero] at h
          exact hpd (prefix_of_length_eq (hplen.trans hd.symm) h)
        · intro h
          simp only [OccursAt, List.drop_zero] at h
          obtain ⟨rest, hrest⟩ := hp
          rw [← hrest] at h
          exact hps (prefix_of_length_eq hplen h)
      · by_cases hiL : i < src.length
        · apply iff_of_false
          · intro h
            exact noOverlap_absurd hdp h0 (by omega : i < dst.length)
              (prefix_overlap_left (by omega) (by omega) h)
          · intro h
            obtain ⟨rest, hrest⟩ := hp
            rw [OccursAt, ← hrest] at h
            exact noOverlap_absurd hsp h0 hiL
              (prefix_overlap_left (by omega) (by omega) h)
        · have hdrop : (dst ++ replaceAll src dst ((a :: cs).drop src.length)).drop i =
              (replaceAll src dst ((a :: cs).drop src.length)).drop (i - src.length) := by
            rw [List.drop_append_eq_append_drop, List.drop_eq_nil_of_le (by omega), hd]
            rfl
          have hdrop2 : (a :: cs).drop i = ((a :: cs).drop src.length).drop (i - src.length) := by
            rw [List.drop_drop]
            congr 1
            omega
          rw [OccursAt, hdrop, OccursAt, hdrop2]
          exact ih _ hlt (i - src.length)
    · rw [replaceAll_neg dst (fun hc => hp hc.2)]
      cases i with
      | succ i =>
        rw [occursAt_shift, occursAt_shift]
        exact ih cs (by simp) i
      | zero =>
        simp only [OccursAt, List.drop_zero]
        cases hpat' : pat with
        | nil => exact absurd hpat' hpat
        | cons p0 t =>
          subst hpat'
          have htlen : t.length + 1 = src.length := by simpa using hplen
          rw [List.cons_prefix_cons, List.cons_prefix_cons]
          constructor
          · rintro ⟨rfl, ht⟩
            refine ⟨rfl, ?_⟩
            cases short_prefix_reflect hsrc hd (by omega) cs ht with
            | inl h => exact h
            | inr hq =>
              obtain ⟨q, hq1, hq2⟩ := hq
              exact absurd hq2 (by
                intro hq2
                refine noOverlap_absurd hpdo (i := q + 1) (by omega) (by simp; omega) ?_
                have e1 : (p0 :: t).drop (q + 1) = t.drop q := rfl
                have e2 : (p0 :: t).length - (q + 1) = t.length - q := by simp
                rw [e1, e2]
                exact hq2)
          · rintro ⟨rfl, ht⟩
            refine ⟨rfl, ?_⟩
            have hnocc : ∀ j, j < t.length → ¬ OccursAt src cs j := by
              intro j hj hocc
              obtain ⟨rest, hrest⟩ := ht
              rw [OccursAt, ← hrest] at hocc
              have hov := @prefix_overlap_left t _ _ _ hj (by omega) hocc
              refine noOverlap_absurd hpso (i := j + 1) (by omega) (by simp; omega) ?_
              have e1 : (p0 :: t).drop (j + 1) = t.drop j := rfl
              have e2 : (p0 :: t).length - (j + 1) = t.length - j := by simp
              rw [e1, e2]
              exact hov
            rw [replaceAll_skip src dst t.length cs hnocc]
            have ht2 : t = cs.take t.length := List.prefix_iff_eq_take.mp ht
            rw [← ht2]
            exact List.prefix_append t _
/-- Counting occurrences only depends on the positions at which the pattern
occurs. -/
theorem countOcc_congr {pat : List Char} (hpat : pat ≠ []) :
    ∀ c x, x.length = c.length → (∀ i, OccursAt pat x i ↔ OccursAt pat c i) →
      countOcc pat x = countOcc pat c := by
  refine list_len_ind ?_
  intro c ih x hlen hiff
  cases c with
  | nil =>
    rw [List.length_nil, List.length_eq_zero] at hlen
    subst hlen
    rfl
  | cons a cs =>
    cases x with
    | nil => simp at hlen
    | cons b xs =>
      have hL : 0 < pat.length := List.length_pos.mpr hpat
      by_cases hp : pat <+: (a :: cs)
      · have hpx : pat <+: (b :: xs) := by
          have := (hiff 0).mpr (by simpa [OccursAt] using hp)
          simpa [OccursAt] using this
        rw [countOcc_pos' hpat hpx, countOcc_pos' hpat hp]
        have hlt : ((a :: cs).drop pat.length).length < (a :: cs).length := by
          simp only [List.length_drop, List.length_cons]
          omega
        rw [ih _ hlt ((b :: xs).drop pat.length)
          (by simp only [List.length_drop]; omega)
          (fun i => by
            rw [OccursAt, OccursAt, List.drop_drop, List.drop_drop]
            exact hiff (pat.length + i))]
      · have hpx : ¬ pat <+: (b :: xs) := by
          intro h
          exact hp (by
            have := (hiff 0).mp (by simpa [OccursAt] using h)
            simpa [OccursAt] using this)
        rw [countOcc_neg' hpx, countOcc_neg' hp]
        exact ih cs (by simp) xs (by simpa using hlen)
          (fun i => by
            rw [← occursAt_shift (a := b), ← occursAt_shift (a := a)]
            exact hiff (i + 1))

/-- Rewriting one entry leaves the occurrence count of an unrelated pattern
unchanged. -/
theorem countOcc_replaceAll_frame {src dst pat : List Char} (hsrc : src ≠ [])
    (hd : dst.length = src.length) (hplen : pat.length = src.length)
    (hps : pat ≠ src) (hpd : pat ≠ dst)
    (hsp : NoOverlap src pat) (hpso : NoOverlap pat src)
    (hdp : NoOverlap dst pat) (hpdo : NoOverlap pat dst) (c : List Char) :
    countOcc pat (replaceAll src dst c) = countOcc pat c := by
  have hpat : pat ≠ [] := by
    intro h
    rw [h] at hplen
    exact hsrc (List.length_eq_zero.mp hplen.symm)
  exact countOcc_congr hpat c _ (length_replaceAll src dst hd c)
    (occursAt_replaceAll_iff hsrc hd hplen hps hpd hsp hpso hdp hpdo c)

/-- Rewriting one entry raises the occurrence count of `dst` by exactly the
occurrence count of `src`, absent aliasing between the two. -/
theorem countOcc_dst_replaceAll {src dst : List Char} (hsrc : src ≠ [])
    (hd : dst.length = src.length) (hneq : src ≠ dst)
    (hds : NoOverlap dst src) (hsd : NoOverlap src dst) (hdd : NoOverlap dst dst) :
    ∀ c, countOcc dst (replaceAll src dst c) = countOcc dst c + countOcc src c := by
  have hdst : dst ≠ [] := by
    intro h
    rw [h] at hd
    exact hsrc (List.length_eq_zero.mp hd.symm)
  refine list_len_ind ?_
  intro c ih
  cases c with
  | nil =>
    rw [replaceAll_nil]
    rfl
  | cons a cs =>
    have hLpos : 0 < src.length := List.length_pos.mpr hsrc
    have hltdrop : ((a :: cs).drop src.length).length < (a :: cs).length := by
      simp only [List.length_drop, List.length_cons]
      omega
    by_cases hp : src <+: (a :: cs)
    · rw [replaceAll_pos dst hsrc hp, countOcc_pos' hdst (List.prefix_append dst _),
        List.drop_left, ih _ hltdrop, countOcc_pos' hsrc hp]
      have hnod : ∀ j, j < src.length → ¬ OccursAt dst (a :: cs) j := by
        intro j hj hocc
        rcases Nat.eq_zero_or_pos j with h0 | h0
        · subst h0
          simp only [OccursAt, List.drop_zero] at hocc
          exact hneq (prefix_eq_of_length_eq hp hocc hd.symm)
        · obtain ⟨rest, hrest⟩ := hp
          rw [OccursAt, ← hrest] at hocc
          exact noOverlap_absurd hsd h0 hj (prefix_overlap_left (by omega) (by omega) hocc)
      rw [countOcc_skip dst src.length (a :: cs) hnod]
      omega
    · have hnos2 : dst <+: (a :: cs) → ∀ j, j < src.length → ¬ OccursAt src (a :: cs) j := by
        intro hdp2 j hj hocc
        rcases Nat.eq_zero_or_pos j with h0 | h0
        · subst h0
          simp only [OccursAt, List.drop_zero] at hocc
          exact hp hocc
        · obtain ⟨rest, hrest⟩ := hdp2
          rw [OccursAt, ← hrest] at hocc
          exact noOverlap_absurd hds h0 (by omega)
            (prefix_overlap_left (by omega) (by omega) hocc)
      by_cases hdp2 : dst <+: (a :: cs)
      · have hnos := hnos2 hdp2
        rw [replaceAll_skip src dst src.length _ hnos]
        have htake : (a :: cs).take src.length = dst := by
          have h1 := List.prefix_iff_eq_take.mp hdp2
          rw [← hd]
          exact h1.symm
        rw [htake, countOcc_pos' hdst (List.prefix_append dst _), List.drop_left,
          ih _ hltdrop, countOcc_pos' hdst hdp2, hd,
          countOcc_skip src src.length _ hnos]
        omega
      · rw [replaceAll_neg dst (fun hc => hp hc.2)]
        have hnd : ¬ dst <+: (a :: replaceAll src dst cs) := by
          intro hcon
          cases hdst' : dst with
          | nil => exact hdst hdst'
          | cons d0 t =>
            subst hdst'
            have htlen : t.length + 1 = src.length := by simpa using hd
            rw [List.cons_prefix_cons] at hcon
            obtain ⟨rfl, ht⟩ := hcon
            cases short_prefix_reflect hsrc hd (by omega) cs ht with
            | inl h => exact hdp2 (List.cons_prefix_cons.mpr ⟨rfl, h⟩)
            | inr hq =>
              obtain ⟨q, hq1, hq2⟩ := hq
              refine noOverlap_absurd hdd (i := q + 1) (by omega) (by simp; omega) ?_
              have e1 : (d0 :: t).drop (q + 1) = t.drop q := rfl
              have e2 : (d0 :: t).length - (q + 1) = t.length - q := by simp
              rw [e1, e2]
              exact hq2
        rw [countOcc_neg' hnd, countOcc_neg' hdp2, countOcc_neg' hp, ih cs (by simp)]

/-! ### The per-file entry loop of `apply_mapping` -/

/-- One iteration of the per-entry loop of `apply_mapping` (src/src/main.rs
lines 146-171): collect the `match_indices` occurrences of `src`, `continue`
if there are none, and rewrite them in place only when `force` is set. -/
def stepEntry (force : Bool) (c : List Char) (e : List Char × List Char) : List Char :=
  if countOcc e.1 c = 0 then c
  else if force then replaceAll e.1 e.2 c else c

/-- The whole per-file entry loop (`for (src, dst) in mapping`,
src/src/main.rs lines 145-171): entries are applied strictly in mapping
order to the in-memory contents. -/
def rewriteFile (force : Bool) (mapping : List (List Char × List Char))
    (c : List Char) : List Char :=
  mapping.foldl (stepEntry force) c

/-- Unconditional per-entry application, used to reason about the
`force = true` branch. -/
def applyEntries (mapping : List (List Char × List Char)) (c : List Char) : List Char :=
  mapping.foldl (fun acc e => replaceAll e.1 e.2 acc) c

theorem replaceAll_of_no_occ {src dst c : List Char} (h : countOcc src c = 0) :
    replaceAll src dst c = c := by
  induction c with
  | nil => exact replaceAll_nil src dst
  | cons a cs ih =>
    by_cases hp : src ≠ [] ∧ src <+: (a :: cs)
    · rw [countOcc_pos hp.1 hp.2] at h
      exact absurd h (Nat.succ_ne_zero _)
    · rw [countOcc_neg hp] at h
      rw [replaceAll_neg dst hp, ih h]

theorem stepEntry_true (c : List Char) (e : List Char × List Char) :
    stepEntry true c e = replaceAll e.1 e.2 c := by
  unfold stepEntry
  by_cases h : countOcc e.1 c = 0
  · rw [if_pos h, replaceAll_of_no_occ h]
  · rw [if_neg h, if_pos rfl]

theorem stepEntry_false (c : List Char) (e : List Char × List Char) :
    stepEntry false c e = c := by
  unfold stepEntry
  by_cases h : countOcc e.1 c = 0
  · rw [if_pos h]
  · rw [if_neg h]
    rfl

theorem rewriteFile_true (mapping : List (List Char × List Char)) :
    ∀ c, rewriteFile true mapping c = applyEntries mapping c := by
  induction mapping with
  | nil => intro c; rfl
  | cons e m ih =>
    intro c
    show List.foldl (stepEntry true) (stepEntry true c e) m = _
    rw [stepEntry_true]
    exact ih (replaceAll e.1 e.2 c)

theorem rewriteFile_false (mapping : List (List Char × List Char)) :
    ∀ c, rewriteFile false mapping c = c := by
  induction mapping with
  | nil => intro c; rfl
  | cons e m ih =>
    intro c
    show List.foldl (stepEntry false) (stepEntry false c e) m = _
    rw [stepEntry_false]
    exact ih c

theorem length_applyEntries :
    ∀ (m : List (List Char × List Char)), (∀ e ∈ m, e.2.length = e.1.length) →
      ∀ c, (applyEntries m c).length = c.length := by
  intro m
  induction m with
  | nil => intro _ c; rfl
  | cons e m ih =>
    intro h c
    show (applyEntries m (replaceAll e.1 e.2 c)).length = c.length
    rw [ih (fun f hf => h f (List.mem_cons_of_mem e hf)) _,
      length_replaceAll _ _ (h e (List.mem_cons_self e m)) c]

/-- The no-aliasing precondition under which the rewrite engine is exact: all
identifiers have the fixed width 32, old identifiers are pairwise distinct,
new identifiers are pairwise distinct, no old identifier equals a new one,
and no nonempty proper suffix of any of them is a prefix of any of them. -/
def GoodFamily (m : List (List Char × List Char)) : Prop :=
  (∀ e ∈ m, e.1.length = 32 ∧ e.2.length = 32) ∧
  (∀ e ∈ m, ∀ f ∈ m,
    NoOverlap e.1 f.1 ∧ NoOverlap e.1 f.2 ∧ NoOverlap e.2 f.1 ∧ NoOverlap e.2 f.2) ∧
  (∀ e ∈ m, ∀ f ∈ m, e.1 ≠ f.2) ∧
  (m.map Prod.fst).Nodup ∧ (m.map Prod.snd).Nodup

instance (m : List (List Char × List Char)) : Decidable (GoodFamily m) := by
  unfold GoodFamily; infer_instance

/-- `pat` is distinct from and alias-free with every identifier of `m`. -/
def ForeignTo (pat : List Char) (m : List (List Char × List Char)) : Prop :=
  ∀ e ∈ m, pat ≠ e.1 ∧ pat ≠ e.2 ∧ NoOverlap e.1 pat ∧ NoOverlap pat e.1 ∧
    NoOverlap e.2 pat ∧ NoOverlap pat e.2

theorem goodFamily_cons {e : List Char × List Char} {m : List (List Char × List Char)}
    (h : GoodFamily (e :: m)) : GoodFamily m := by
  obtain ⟨h1, h2, h3, h4, h5⟩ := h
  refine ⟨fun f hf => h1 f (List.mem_cons_of_mem e hf),
    fun f hf g hg => h2 f (List.mem_cons_of_mem e hf) g (List.mem_cons_of_mem e hg),
    fun f hf g hg => h3 f (List.mem_cons_of_mem e hf) g (List.mem_cons_of_mem e hg),
    ?_, ?_⟩
  · rw [List.map_cons] at h4
    exact h4.of_cons
  · rw [List.map_cons] at h5
    exact h5.of_cons

theorem goodFamily_head_foreign_fst {e : List Char × List Char}
    {m : List (List Char × List Char)} (h : GoodFamily (e :: m)) : ForeignTo e.1 m := by
  obtain ⟨h1, h2, h3, h4, h5⟩ := h
  intro f hf
  have hmem : f ∈ e :: m := List.mem_cons_of_mem e hf
  have hself : e ∈ e :: m := List.mem_cons_self e m
  refine ⟨?_, ?_, (h2 f hmem e hself).1, (h2 e hself f hmem).1, (h2 f hmem e hself).2.2.1,
    (h2 e hself f hmem).2.1⟩
  · rw [List.map_cons] at h4
    intro hcon
    exact (List.nodup_cons.mp h4).1 (hcon ▸ List.mem_map_of_mem Prod.fst hf)
  · exact h3 e hself f hmem

theorem goodFamily_head_foreign_snd {e : List Char × List Char}
    {m : List (List Char × List Char)} (h : GoodFamily (e :: m)) : ForeignTo e.2 m := by
  obtain ⟨h1, h2, h3, h4, h5⟩ := h
  intro f hf
  have hmem : f ∈ e :: m := List.mem_cons_of_mem e hf
  have hself : e ∈ e :: m := List.mem_cons_self e m
  refine ⟨?_, ?_, (h2 f hmem e hself).2.1, (h2 e hself f hmem).2.2.1,
    (h2 f hmem e hself).2.2.2, (h2 e hself f hmem).2.2.2⟩
  · exact fun hcon => h3 f hmem e hself hcon.symm
  · rw [List.map_cons] at h5
    intro hcon
    exact (List.nodup_cons.mp h5).1 (hcon ▸ List.mem_map_of_mem Prod.snd hf)

theorem foreignTo_cons {pat : List Char} {e : List Char × List Char}
    {m : List (List Char × List Char)} (h : ForeignTo pat (e :: m)) : ForeignTo pat m :=
  fun f hf => h f (List.mem_cons_of_mem e hf)

/-- Core correctness of the per-file rewrite under `GoodFamily`: unrelated
patterns keep their exact occurrence positions, every old identifier is
eliminated, and every new identifier gains exactly the occurrences of its
old identifier. -/
theorem applyEntries_spec :
    ∀ (m : List (List Char × List Char)), GoodFamily m → ∀ c,
      (∀ pat, pat.length = 32 → ForeignTo pat m →
        ∀ i, OccursAt pat (applyEntries m c) i ↔ OccursAt pat c i) ∧
      (∀ e ∈ m, ∀ i, ¬ OccursAt e.1 (applyEntries m c) i) ∧
      (∀ e ∈ m, countOcc e.2 (applyEntries m c) = countOcc e.2 c + countOcc e.1 c) := by
  intro m
  induction m with
  | nil =>
    intro _ c
    exact ⟨fun pat _ _ i => Iff.rfl, fun e he => absurd he (List.not_mem_nil e),
      fun e he => absurd he (List.not_mem_nil e)⟩
  | cons e m ih =>
    intro hfam c
    have hself : e ∈ e :: m := List.mem_cons_self e m
    have hlen := hfam.1 e hself
    have hsrc : e.1 ≠ [] := by
      intro hcon
      have := hlen.1
      rw [hcon] at this
      simp at this
    have hd : e.2.length = e.1.length := by rw [hlen.1, hlen.2]
    have hneq : e.1 ≠ e.2 := hfam.2.2.1 e hself e hself
    have hov := hfam.2.1 e hself e hself
    have hfam' := goodFamily_cons hfam
    have hfor1 := goodFamily_head_foreign_fst hfam
    have hfor2 := goodFamily_head_foreign_snd hfam
    have happly : applyEntries (e :: m) c = applyEntries m (replaceAll e.1 e.2 c) := rfl
    have IH := ih hfam' (replaceAll e.1 e.2 c)
    refine ⟨?_, ?_, ?_⟩
    · intro pat hpat hforeign i
      rw [happly]
      have hfe := hforeign e hself
      rw [IH.1 pat hpat (foreignTo_cons hforeign) i]
      exact occursAt_replaceAll_iff hsrc hd (by rw [hpat, hlen.1]) hfe.1 hfe.2.1
        hfe.2.2.1 hfe.2.2.2.1 hfe.2.2.2.2.1 hfe.2.2.2.2.2 c i
    · intro f hf i
      rw [happly]
      rcases List.mem_cons.mp hf with rfl | hfm
      · rw [IH.1 f.1 hlen.1 hfor1 i]
        exact replaceAll_no_src hsrc hd hneq hov.2.2.1 hov.2.1 c i
      · exact IH.2.1 f hfm i
    · intro f hf
      rw [happly]
      rcases List.mem_cons.mp hf with rfl | hfm
      · have hlenpres : (applyEntries m (replaceAll f.1 f.2 c)).length =
            (replaceAll f.1 f.2 c).length :=
          length_applyEntries m
            (fun g hg => by
              have := hfam'.1 g hg
              rw [this.1, this.2]) _
        have hcongr := @countOcc_congr f.2
          (by
            intro hcon
            have := hlen.2
            rw [hcon] at this
            simp at this)
          (replaceAll f.1 f.2 c) (applyEntries m (replaceAll f.1 f.2 c)) hlenpres
          (fun i => IH.1 f.2 hlen.2 hfor2 i)
        rw [hcongr]
        exact countOcc_dst_replaceAll hsrc hd hneq hov.2.2.1 hov.2.1 hov.2.2.2 c
      · rw [IH.2.2 f hfm]
        have hflen := hfam'.1 f hfm
        have hfe1 := hfor1 f hfm
        have hfe2 := hfor2 f hfm
        have hframe2 : countOcc f.2 (replaceAll e.1 e.2 c) = countOcc f.2 c :=
          countOcc_replaceAll_frame hsrc hd (by rw [hflen.2, hlen.1])
            (fun hcon => hfe1.2.1 hcon.symm) (fun hcon => hfe2.2.1 hcon.symm)
            hfe1.2.2.2.2.2 hfe1.2.2.2.2.1 hfe2.2.2.2.2.2 hfe2.2.2.2.2.1 c
        have hframe1 : countOcc f.1 (replaceAll e.1 e.2 c) = countOcc f.1 c :=
          countOcc_replaceAll_frame hsrc hd (by rw [hflen.1, hlen.1])
            (fun hcon => hfe1.1 hcon.symm) (fun hcon => hfe2.1 hcon.symm)
            hfe1.2.2.2.1 hfe1.2.2.1 hfe2.2.2.2.1 hfe2.2.2.1 c
        rw [hframe1, hframe2]

/-! ### Identifier rendering and parsing -/

/-- A single lowercase hexadecimal digit. -/
def hexDigitChar (n : Nat) : Char :=
  if n < 10 then Char.ofNat (48 + n) else Char.ofNat (87 + n)

/-- Modelled from the spec: the `simple()` rendering of the external uuid
crate — the compact 32-character lowercase-hexadecimal form of a 128-bit
value, most significant digit first (spec §3, `guid.simple().to_string()`
at src/src/main.rs line 118). -/
def toHex32 (n : Nat) : List Char :=
  (List.range 32).map (fun i => hexDigitChar (n / 16 ^ (31 - i) % 16))

def isHexDigitB (c : Char) : Bool :=
  (decide ('0' ≤ c) && decide (c ≤ '9')) || (decide ('a' ≤ c) && decide (c ≤ 'f')) ||
    (decide ('A' ≤ c) && decide (c ≤ 'F'))

def hexVal (c : Char) : Nat :=
  if decide ('0' ≤ c) && decide (c ≤ '9') then c.toNat - 48
  else if decide ('a' ≤ c) && decide (c ≤ 'f') then c.toNat - 87
  else c.toNat - 55

def hexListVal (s : List Char) : Nat := s.foldl (fun a c => a * 16 + hexVal c) 0

/-- Modelled from the spec: `Uuid::parse_str` of the external uuid crate, for
the two textual encodings the spec names (§6): 32 hex digits, optionally
hyphen-grouped 8-4-4-4-12. -/
def parseUuid (s : List Char) : Option Nat :=
  if s.all isHexDigitB && (s.length == 32) then some (hexListVal s)
  else
    let parts := s.splitOn '-'
    if (parts.map List.length == [8, 4, 4, 4, 12]) && parts.flatten.all isHexDigitB then
      some (hexListVal parts.flatten)
    else none

theorem length_toHex32 (n : Nat) : (toHex32 n).length = 32 := by
  simp [toHex32]

/-- `toHex32` generalized to `k` digits, for the injectivity proof. -/
def toHexK (k n : Nat) : List Char :=
  (List.range k).map (fun i => hexDigitChar (n / 16 ^ (k - 1 - i) % 16))

theorem toHex32_eq_toHexK (n : Nat) : toHex32 n = toHexK 32 n := rfl

theorem hexVal_hexDigitChar {k : Nat} (h : k < 16) : hexVal (hexDigitChar k) = k := by
  interval_cases k <;> decide

theorem toHexK_succ (k n : Nat) :
    toHexK (k + 1) n = hexDigitChar (n / 16 ^ k % 16) :: toHexK k n := by
  unfold toHexK
  rw [List.range_succ_eq_map, List.map_cons, List.map_map]
  have h0 : k + 1 - 1 - 0 = k := by omega
  rw [h0]
  congr 1
  congr 1
  funext i
  have h1 : k + 1 - 1 - Nat.succ i = k - 1 - i := by omega
  simp only [Function.comp_apply, h1]

theorem hexListVal_cons (d : Char) (ds : List Char) :
    hexListVal (d :: ds) = hexVal d * 16 ^ ds.length + hexListVal ds := by
  have H : ∀ (ds : List Char) (a : Nat),
      List.foldl (fun a c => a * 16 + hexVal c) a ds =
        a * 16 ^ ds.length + List.foldl (fun a c => a * 16 + hexVal c) 0 ds := by
    intro ds
    induction ds with
    | nil => intro a; simp
    | cons d ds ih =>
      intro a
      show List.foldl _ (a * 16 + hexVal d) ds = _
      have hfold : List.foldl (fun a c => a * 16 + hexVal c) 0 (d :: ds) =
          List.foldl (fun a c => a * 16 + hexVal c) (0 * 16 + hexVal d) ds := rfl
      rw [ih (a * 16 + hexVal d), hfold, ih (0 * 16 + hexVal d)]
      simp only [List.length_cons]
      ring
  show List.foldl _ (0 * 16 + hexVal d) ds = _
  rw [H ds (0 * 16 + hexVal d)]
  simp only [Nat.zero_mul, Nat.zero_add]
  rfl

theorem hexListVal_toHexK : ∀ k n, hexListVal (toHexK k n) = n % 16 ^ k := by
  intro k
  induction k with
  | zero => intro n; simp [toHexK, hexListVal, Nat.mod_one]
  | succ k ih =>
    intro n
    rw [toHexK_succ, hexListVal_cons, ih n]
    have hlen : (toHexK k n).length = k := by simp [toHexK]
    rw [hlen, hexVal_hexDigitChar (Nat.mod_lt _ (by norm_num))]
    rw [Nat.mod_pow_succ]
    ring

theorem toHex32_inj {a b : Nat} (ha : a < 2 ^ 128) (hb : b < 2 ^ 128)
    (h : toHex32 a = toHex32 b) : a = b := by
  have h1 := congrArg hexListVal h
  rw [toHex32_eq_toHexK, toHex32_eq_toHexK, hexListVal_toHexK, hexListVal_toHexK] at h1
  have h16 : (16 : Nat) ^ 32 = 2 ^ 128 := by norm_num
  rwa [Nat.mod_eq_of_lt (h16 ▸ ha), Nat.mod_eq_of_lt (h16 ▸ hb)] at h1

/-! ### The mapping-builder pass (`make_mapping`) -/

/-- Modelled from the spec: the outcome of reading one candidate `.meta` file
and parsing it with the external yaml_rust crate, as discriminated by
src/src/main.rs lines 66-101.  Each constructor is one of the per-file
failure modes, except `guidStr`, which carries the string value of the
`guid` key of the single top-level hash document. -/
inductive MetaParse where
  | readErr
  | parseErr
  | badDocCount
  | nonHash
  | noGuid
  | guidStr (s : List Char)
deriving DecidableEq

/-- A regular-file check, a file name and the parse outcome: everything
`make_mapping` inspects about one directory entry. -/
structure MetaFile where
  isFile : Bool
  name : List Char
  parse : MetaParse
deriving DecidableEq

/-- Modelled from the spec: the external walkdir traversal yields a stream of
results; `err` stands for an unreadable directory entry, which the program
hits with `entry.unwrap()` (src/src/main.rs lines 55 and 126). -/
inductive WalkItem (α : Type) where
  | ok (entry : α)
  | err
deriving DecidableEq

/-- The per-file filter-and-extract chain of `make_mapping` (src/src/main.rs
lines 57-114): skip non-files, skip files not ending in `.meta`, and extract
a successfully parsed 128-bit identifier, if any. -/
def candidateOld (f : MetaFile) : Option Nat :=
  if f.isFile && (".meta".toList.isSuffixOf f.name) then
    match f.parse with
    | .guidStr s => parseUuid s
    | _ => none
  else none

/-- The `make_mapping` pass (src/src/main.rs lines 50-122) over the walk
stream.  `fresh k` is the `k`-th value drawn from the random generator
(`Uuid::new_v4`, external, modelled from the spec as an input stream).  The
result pairs the accumulated mapping with a flag telling whether the pass
panicked on a traversal error; after a panic no further entry is
processed. -/
def make_mapping (fresh : Nat → Nat) :
    List (WalkItem MetaFile) → Nat → List (List Char × List Char) × Bool
  | [], _ => ([], false)
  | .err :: _, _ => ([], true)
  | .ok f :: rest, k =>
    match candidateOld f with
    | some u =>
      let r := make_mapping fresh rest (k + 1)
      ((toHex32 u, toHex32 (fresh k)) :: r.1, r.2)
    | none => make_mapping fresh rest k

/-! ### The rewrite pass (`apply_mapping`) -/

/-- The externally observable effect of `apply_mapping` on one directory
entry: whether the file was read, and the contents written back, if any. -/
structure FileAction where
  read : Bool
  write : Option (List Char)
deriving DecidableEq

/-- Everything `apply_mapping` inspects about one directory entry of the
working tree; `readResult` stands for the outcome of
`std::fs::read_to_string` (line 137), supplied as an input. -/
structure TargetFile where
  isFile : Bool
  name : List Char
  readResult : Option (List Char)
deriving DecidableEq

/-- The per-file body of `apply_mapping` (src/src/main.rs lines 125-178):
skip non-files (line 128), skip names ending in an ignored suffix
(line 133), skip unreadable files (lines 137-143), run the entry loop on the
contents, and, whenever `force` is set, write the file back (lines
173-177). -/
def processFile (ignore : List (List Char)) (mapping : List (List Char × List Char))
    (force : Bool) (isFile : Bool) (name : List Char)
    (readResult : Option (List Char)) : FileAction :=
  if !isFile then ⟨false, none⟩
  else if ignore.any (fun ext => ext.isSuffixOf name) then ⟨false, none⟩
  else
    match readResult with
    | none => ⟨true, none⟩
    | some contents =>
      ⟨true, if force then some (rewriteFile force mapping contents) else none⟩

/-- The `apply_mapping` pass (src/src/main.rs lines 124-179) over the walk
stream: the list of file writes performed (name and written contents), and
whether the pass panicked on a traversal error; after a panic no further
entry is processed. -/
def apply_mapping (ignore : List (List Char)) (mapping : List (List Char × List Char))
    (force : Bool) : List (WalkItem TargetFile) → List (List Char × List Char) × Bool
  | [] => ([], false)
  | .err :: _ => ([], true)
  | .ok f :: rest =>
    let r := apply_mapping ignore mapping force rest
    ((match (processFile ignore mapping force f.isFile f.name f.readResult).write with
      | some w => [(f.name, w)]
      | none => []) ++ r.1, r.2)

theorem processFile_write_of_force_false (ignore : List (List Char))
    (mapping : List (List Char × List Char)) (isFile : Bool) (name : List Char)
    (r : Option (List Char)) :
    (processFile ignore mapping false isFile name r).write = none := by
  unfold processFile
  repeat' first
  | rfl
  | split

theorem processFile_not_ignored {ignore : List (List Char)} {name : List Char}
    (mapping : List (List Char × List Char)) (force : Bool)
    (hig : ignore.any (fun ext => ext.isSuffixOf name) = false) (c : List Char) :
    processFile ignore mapping force true name (some c) =
      ⟨true, if force then some (rewriteFile force mapping c) else none⟩ := by
  simp [processFile, hig]

theorem processFile_ignored {ignore : List (List Char)} {name : List Char}
    (mapping : List (List Char × List Char)) (force : Bool)
    (hig : ignore.any (fun ext => ext.isSuffixOf name) = true) (r : Option (List Char)) :
    processFile ignore mapping force true name r = ⟨false, none⟩ := by
  simp [processFile, hig]

theorem make_mapping_entry_lengths (fresh : Nat → Nat) :
    ∀ (items : List (WalkItem MetaFile)) (k : Nat) (e : List Char × List Char),
      e ∈ (make_mapping fresh items k).1 → e.1.length = 32 ∧ e.2.length = 32 := by
  intro items
  induction items with
  | nil =>
    intro k e he
    exact absurd he (List.not_mem_nil e)
  | cons it rest ih =>
    intro k e he
    cases it with
    | err => exact absurd he (List.not_mem_nil e)
    | ok f =>
      rw [show make_mapping fresh (.ok f :: rest) k =
        (match candidateOld f with
          | some u =>
            ((toHex32 u, toHex32 (fresh k)) :: (make_mapping fresh rest (k + 1)).1,
              (make_mapping fresh rest (k + 1)).2)
          | none => make_mapping fresh rest k) from rfl] at he
      cases hc : candidateOld f with
      | some u =>
        rw [hc] at he
        rcases List.mem_cons.mp he with rfl | hmem
        · exact ⟨length_toHex32 u, length_toHex32 (fresh k)⟩
        · exact ih (k + 1) e hmem
      | none =>
        rw [hc] at he
        exact ih k e he

/-! ### Claim C2 -/

/-- C2: a dry run (`apply=false`) performs no file write on any walk of the
working tree, for every mapping and every ignore list, and the per-file entry
loop leaves the in-memory contents untouched. -/
theorem c2_dry_run_never_writes (ignore : List (List Char))
    (mapping : List (List Char × List Char)) (items : List (WalkItem TargetFile))
    (c : List Char) :
    (apply_mapping ignore mapping false items).1 = [] ∧
      rewriteFile false mapping c = c := by
  refine ⟨?_, rewriteFile_false mapping c⟩
  induction items with
  | nil => rfl
  | cons it rest ih =>
    cases it with
    | err => rfl
    | ok f =>
      show (match (processFile ignore mapping false f.isFile f.name f.readResult).write with
        | some w => [(f.name, w)]
        | none => ([] : List (List Char × List Char))) ++
          (apply_mapping ignore mapping false rest).1 = []
      rw [processFile_write_of_force_false, ih]
      rfl

/-! ### Claim C3 -/

/-- C3 counterexample: with `apply=true` a file is written back even when no
substitution occurred — here the mapping is empty, so zero substitutions
happen, yet `processFile` still performs a write (of the unchanged
contents).  This refutes the claim that a file is persisted only if at least
one substitution occurred. -/
theorem c3_persist_only_if_substituted_counterexample :
    (processFile [] [] true true "a.txt".toList (some "hello".toList)).write =
        some "hello".toList ∧
      countOcc "x".toList "hello".toList = 0 ∧
      (processFile [] [] true true "a.txt".toList (some "hello".toList)).write ≠ none := by
  refine ⟨rfl, rfl, ?_⟩
  intro h
  simp [processFile] at h

/-- C3 (amended): with `apply=true`, every regular, non-ignored, readable
file is written back, whether or not any substitution occurred; the written
contents equal the rewritten in-memory contents, and with an empty mapping
those contents are unchanged, so an empty mapping never changes any file's
contents (although the files are still rewritten in place). -/
theorem c3_persist_amended (ignore : List (List Char))
    (mapping : List (List Char × List Char)) (name : List Char) (c : List Char)
    (hig : ignore.any (fun ext => ext.isSuffixOf name) = false) :
    (processFile ignore mapping true true name (some c)).write =
        some (rewriteFile true mapping c) ∧
      rewriteFile true ([] : List (List Char × List Char)) c = c := by
  rw [processFile_not_ignored mapping true hig c]
  exact ⟨rfl, rfl⟩

/-- C3 witness. -/
theorem c3_persist_amended_witness :
    (processFile [".png".toList] [("ab".toList, "cd".toList)] true true "a.txt".toList
        (some "xաbc".toList)).write =
        some (rewriteFile true [("ab".toList, "cd".toList)] "xաbc".toList) ∧
      rewriteFile true ([] : List (List Char × List Char)) "xաbc".toList = "xաbc".toList :=
  c3_persist_amended [".png".toList] [("ab".toList, "cd".toList)] "a.txt".toList
    "xաbc".toList (by decide)

/-! ### Claim C7 -/

/-- C7: a regular file whose name ends with an ignored suffix (case-sensitive
exact suffix match) is neither read nor written by the rewrite pass, whatever
the mapping, the `force` flag, and the file's contents. -/
theorem c7_ignored_file_untouched (ignore : List (List Char))
    (mapping : List (List Char × List Char)) (force : Bool) (name : List Char)
    (r : Option (List Char))
    (hig : ignore.any (fun ext => ext.isSuffixOf name) = true) :
    (processFile ignore mapping force true name r).read = false ∧
      (processFile ignore mapping force true name r).write = none := by
  rw [processFile_ignored mapping force hig r]
  exact ⟨rfl, rfl⟩

/-- C7 witness: a `.png` file full of mapped identifiers, `force` on. -/
theorem c7_ignored_file_untouched_witness :
    (processFile [".png".toList] [("ab".toList, "cd".toList)] true true "x.png".toList
        (some "ab".toList)).read = false ∧
      (processFile [".png".toList] [("ab".toList, "cd".toList)] true true "x.png".toList
        (some "ab".toList)).write = none :=
  c7_ignored_file_untouched [".png".toList] [("ab".toList, "cd".toList)] true
    "x.png".toList (some "ab".toList) (by decide)

/-! ### Claim C4 -/

/-- C4: every mapping entry produced by the mapping builder renders both the
old and the new identifier in compact form with exactly 32 characters. -/
theorem c4_length_invariance (fresh : Nat → Nat) (items : List (WalkItem MetaFile))
    (k : Nat) (e : List Char × List Char) (he : e ∈ (make_mapping fresh items k).1) :
    e.1.length = 32 ∧ e.2.length = 32 :=
  make_mapping_entry_lengths fresh items k e he

/-- C4 witness: one well-formed `.meta` file yields one entry, and its two
sides have length 32. -/
theorem c4_length_invariance_witness :
    ((toHex32 0, toHex32 1) : List Char × List Char).1.length = 32 ∧
      ((toHex32 0, toHex32 1) : List Char × List Char).2.length = 32 :=
  c4_length_invariance (fun i => i)
    [.ok ⟨true, "a.meta".toList, .guidStr (List.replicate 32 '0')⟩, .ok ⟨true, "b.txt".toList, .readErr⟩]
    1 (toHex32 0, toHex32 1) (by decide)

/-! ### Claim C8 -/

/-- A per-file failure of the mapping builder, one case per failure mode of
src/src/main.rs lines 66-114: read error, YAML parse error, zero or several
documents, non-hash top level, missing or non-string `guid`, or an
unparsable identifier string. -/
def metaStepFails : MetaParse → Prop
  | .guidStr s => parseUuid s = none
  | _ => True

instance (p : MetaParse) : Decidable (metaStepFails p) := by
  cases p with
  | guidStr s => show Decidable (parseUuid s = none); infer_instance
  | readErr => exact isTrue trivial
  | parseErr => exact isTrue trivial
  | badDocCount => exact isTrue trivial
  | nonHash => exact isTrue trivial
  | noGuid => exact isTrue trivial

/-- C8: a descriptor (`.meta`) file that fails any per-file step yields no
mapping entry, does not abort the pass, and leaves the result exactly what it
is for the remaining files. -/
theorem c8_malformed_meta_skipped (f : MetaFile) (hfile : f.isFile = true)
    (hmeta : ".meta".toList.isSuffixOf f.name = true) (hfail : metaStepFails f.parse)
    (fresh : Nat → Nat) (rest : List (WalkItem MetaFile)) (k : Nat) :
    make_mapping fresh (.ok f :: rest) k = make_mapping fresh rest k ∧
      candidateOld f = none := by
  have hcand : candidateOld f = none := by
    unfold candidateOld
    rw [hfile, hmeta]
    simp only [Bool.and_self, if_true]
    cases hp : f.parse with
    | guidStr s =>
      rw [hp] at hfail
      exact hfail
    | readErr => rfl
    | parseErr => rfl
    | badDocCount => rfl
    | nonHash => rfl
    | noGuid => rfl
  refine ⟨?_, hcand⟩
  rw [show make_mapping fresh (.ok f :: rest) k =
    (match candidateOld f with
      | some u =>
        ((toHex32 u, toHex32 (fresh k)) :: (make_mapping fresh rest (k + 1)).1,
          (make_mapping fresh rest (k + 1)).2)
      | none => make_mapping fresh rest k) from rfl]
  rw [hcand]

/-- C8 witness: a `.meta` file with an unparsable `guid` string is skipped
while the rest of the walk still yields its entry. -/
theorem c8_malformed_meta_skipped_witness :
    make_mapping (fun i => i)
        (.ok ⟨true, "a.meta".toList, .guidStr "zz".toList⟩ ::
          [.ok ⟨true, "b.meta".toList, .guidStr (List.replicate 32 '0')⟩]) 0 =
      make_mapping (fun i => i)
        [.ok ⟨true, "b.meta".toList, .guidStr (List.replicate 32 '0')⟩] 0 ∧
      candidateOld ⟨true, "a.meta".toList, .guidStr "zz".toList⟩ = none :=
  c8_malformed_meta_skipped ⟨true, "a.meta".toList, .guidStr "zz".toList⟩ rfl
    (by decide) (by decide) (fun i => i)
    [.ok ⟨true, "b.meta".toList, .guidStr (List.replicate 32 '0')⟩] 0

/-! ### Claim C9 -/

theorem make_mapping_cons_ok (fresh : Nat → Nat) (f : MetaFile)
    (rest : List (WalkItem MetaFile)) (k : Nat) :
    make_mapping fresh (.ok f :: rest) k =
      (match candidateOld f with
        | some u =>
          ((toHex32 u, toHex32 (fresh k)) :: (make_mapping fresh rest (k + 1)).1,
            (make_mapping fresh rest (k + 1)).2)
        | none => make_mapping fresh rest k) := rfl

/-- C9: a traversal error aborts the whole pass in both walks: the pass's
panic flag is set whenever an unreadable directory entry appears, and an
error entry stops the pass on the spot — no later entry is processed and no
accumulated result survives — unlike every other per-file error. -/
theorem c9_traversal_error_fatal (fresh : Nat → Nat) (items : List (WalkItem MetaFile))
    (k : Nat) (ignore : List (List Char)) (mapping : List (List Char × List Char))
    (force : Bool) (titems : List (WalkItem TargetFile))
    (h1 : WalkItem.err ∈ items) (h2 : WalkItem.err ∈ titems) :
    (make_mapping fresh items k).2 = true ∧
      (apply_mapping ignore mapping force titems).2 = true ∧
      make_mapping fresh (.err :: items) k = ([], true) ∧
      apply_mapping ignore mapping force (.err :: titems) = ([], true) := by
  refine ⟨?_, ?_, rfl, rfl⟩
  · induction items generalizing k with
    | nil => exact absurd h1 (List.not_mem_nil _)
    | cons it rest ih =>
      cases it with
      | err => rfl
      | ok f =>
        have hmem : WalkItem.err ∈ rest := by
          rcases List.mem_cons.mp h1 with hcon | hmem
          · exact absurd hcon (by simp)
          · exact hmem
        rw [make_mapping_cons_ok]
        cases hc : candidateOld f with
        | some u => exact ih (k + 1) hmem
        | none => exact ih k hmem
  · induction titems with
    | nil => exact absurd h2 (List.not_mem_nil _)
    | cons it rest ih =>
      cases it with
      | err => rfl
      | ok f =>
        have hmem : WalkItem.err ∈ rest := by
          rcases List.mem_cons.mp h2 with hcon | hmem
          · exact absurd hcon (by simp)
          · exact hmem
        exact ih hmem

/-- C9 witness. -/
theorem c9_traversal_error_fatal_witness :
    (make_mapping (fun i => i) [.err] 0).2 = true ∧
      (apply_mapping [] [] true [.err]).2 = true ∧
      make_mapping (fun i => i) (.err :: [.err]) 0 = ([], true) ∧
      apply_mapping [] [] true (.err :: [.err]) = ([], true) :=
  c9_traversal_error_fatal (fun i => i) [.err] 0 [] [] true [.err]
    (by simp) (by simp)

/-! ### Claim C6 -/

/-- C6 counterexample: the claim asserts the two entries always carry
different new values, but the generator is random and unchecked — if it
yields the same 128-bit value twice, both entries carry the same new value.
Here the modelled generator stream repeats, and the produced mapping has two
equal new values. -/
theorem c6_duplicate_old_counterexample :
    (make_mapping (fun _ => 0)
        [.ok ⟨true, "a.meta".toList, .guidStr (List.replicate 32 '0')⟩,
          .ok ⟨true, "b.meta".toList, .guidStr (List.replicate 32 '0')⟩] 0).1 =
        [(toHex32 0, toHex32 0), (toHex32 0, toHex32 0)] ∧
      ¬ ((make_mapping (fun _ => 0)
        [.ok ⟨true, "a.meta".toList, .guidStr (List.replicate 32 '0')⟩,
          .ok ⟨true, "b.meta".toList, .guidStr (List.replicate 32 '0')⟩] 0).1.map
            Prod.snd).Nodup := by
  constructor
  · decide
  · decide

/-- C6 (amended): if two descriptor files declare the same identifier, the
builder produces two independent entries with the same old value, and —
provided the two freshly drawn 128-bit values differ, which the code does
not enforce — with different new values; the rewrite engine applies both
entries in mapping order, the second acting on the output of the first. -/
theorem c6_duplicate_old_amended (fresh : Nat → Nat) (s : List Char) (u : Nat)
    (name1 name2 : List Char) (hs : parseUuid s = some u)
    (hn1 : ".meta".toList.isSuffixOf name1 = true)
    (hn2 : ".meta".toList.isSuffixOf name2 = true)
    (hf0 : fresh 0 < 2 ^ 128) (hf1 : fresh 1 < 2 ^ 128) (hne : fresh 0 ≠ fresh 1)
    (c : List Char) :
    make_mapping fresh [.ok ⟨true, name1, .guidStr s⟩, .ok ⟨true, name2, .guidStr s⟩] 0 =
        ([(toHex32 u, toHex32 (fresh 0)), (toHex32 u, toHex32 (fresh 1))], false) ∧
      toHex32 (fresh 0) ≠ toHex32 (fresh 1) ∧
      rewriteFile true [(toHex32 u, toHex32 (fresh 0)), (toHex32 u, toHex32 (fresh 1))] c =
        replaceAll (toHex32 u) (toHex32 (fresh 1))
          (replaceAll (toHex32 u) (toHex32 (fresh 0)) c) := by
  have hc1 : candidateOld ⟨true, name1, .guidStr s⟩ = some u := by
    unfold candidateOld
    simp only [hn1, Bool.and_self, if_true]
    exact hs
  have hc2 : candidateOld ⟨true, name2, .guidStr s⟩ = some u := by
    unfold candidateOld
    simp only [hn2, Bool.and_self, if_true]
    exact hs
  refine ⟨?_, ?_, ?_⟩
  · rw [make_mapping_cons_ok, hc1]
    rw [make_mapping_cons_ok, hc2]
    rfl
  · exact fun h => hne (toHex32_inj hf0 hf1 h)
  · rw [rewriteFile_true]
    rfl

/-- C6 witness: two `.meta` files declaring the all-zero identifier, with a
generator stream yielding 0 then 1. -/
theorem c6_duplicate_old_amended_witness :
    make_mapping (fun i => i)
        [.ok ⟨true, "a.meta".toList, .guidStr (List.replicate 32 '0')⟩,
          .ok ⟨true, "b.meta".toList, .guidStr (List.replicate 32 '0')⟩] 0 =
        ([(toHex32 0, toHex32 0), (toHex32 0, toHex32 1)], false) ∧
      toHex32 0 ≠ toHex32 1 ∧
      rewriteFile true [(toHex32 0, toHex32 0), (toHex32 0, toHex32 1)]
          (List.replicate 32 '0') =
        replaceAll (toHex32 0) (toHex32 1)
          (replaceAll (toHex32 0) (toHex32 0) (List.replicate 32 '0')) :=
  c6_duplicate_old_amended (fun i => i) (List.replicate 32 '0') 0
    "a.meta".toList "b.meta".toList (by decide) (by decide) (by decide)
    (by norm_num) (by norm_num) (by decide)
    (List.replicate 32 '0')

/-! ### Claim C1 -/

/-- The aliasing precondition exactly as the claim states it: no old
identifier is a substring of another entry's old or new identifier. -/
def StatedAliasFree (m : List (List Char × List Char)) : Prop :=
  ∀ e ∈ m, ∀ f ∈ m, e ≠ f → ¬ (e.1 <:+: f.1) ∧ ¬ (e.1 <:+: f.2)

instance (m : List (List Char × List Char)) : Decidable (StatedAliasFree m) := by
  unfold StatedAliasFree; infer_instance

/-- C1 counterexample: the claim's precondition only rules out one old
identifier being a substring of another entry's identifiers, but a rewrite
can create a fresh occurrence of an entry's own old identifier by butting an
emitted new identifier against the surrounding content.  With the single
entry `(a b^31, b^32)` (which vacuously satisfies the stated precondition)
and content `a a b^31`, the rewrite produces `a b^32`, which again contains
the old identifier — so "zero occurrences of any old identifier" fails. -/
theorem c1_substitution_completeness_counterexample :
    ¬ (∀ (m : List (List Char × List Char)) (c : List Char), StatedAliasFree m →
        ∀ e ∈ m, (∀ i, ¬ OccursAt e.1 (rewriteFile true m c) i) ∧
          countOcc e.2 (rewriteFile true m c) = countOcc e.2 c + countOcc e.1 c) := by
  intro h
  have hc := h [('a' :: List.replicate 31 'b', List.replicate 32 'b')]
    ('a' :: 'a' :: List.replicate 31 'b') (by decide)
    ('a' :: List.replicate 31 'b', List.replicate 32 'b') (by simp)
  exact hc.1 0 (by decide)

/-- C1 (amended): for a regular file not matched by the ignore list, an
apply-mode run writes back contents in which no old identifier of the mapping
occurs at any position, and each entry's new identifier occurs exactly as
often as before plus the prior occurrence count of its old identifier — under
the strengthened precondition `GoodFamily`: besides the claim's pairwise
substring-freedom (strengthened to cover duplicate old values and old/new
equality), no nonempty proper suffix of any mapped identifier may be a prefix
of any mapped identifier, ruling out the boundary overlaps with file content
that the original precondition does not exclude. -/
theorem c1_substitution_completeness_amended (ignore : List (List Char))
    (m : List (List Char × List Char)) (name c : List Char)
    (e : List Char × List Char) (i : Nat) (hfam : GoodFamily m)
    (hig : ignore.any (fun ext => ext.isSuffixOf name) = false) (he : e ∈ m) :
    (processFile ignore m true true name (some c)).write = some (rewriteFile true m c) ∧
      ¬ OccursAt e.1 (rewriteFile true m c) i ∧
      countOcc e.2 (rewriteFile true m c) = countOcc e.2 c + countOcc e.1 c := by
  refine ⟨?_, ?_, ?_⟩
  · rw [processFile_not_ignored m true hig c]
    rfl
  · rw [rewriteFile_true]
    exact (applyEntries_spec m hfam c).2.1 e he i
  · rw [rewriteFile_true]
    exact (applyEntries_spec m hfam c).2.2 e he

/-- C1 witness: one alias-free entry, contents holding two occurrences of the
old identifier and one of the new. -/
theorem c1_substitution_completeness_amended_witness :
    (processFile [".png".toList]
          [('a' :: List.replicate 31 'b', 'c' :: List.replicate 31 'd')] true true
          "a.txt".toList
          (some (('c' :: List.replicate 31 'd') ++ ('a' :: List.replicate 31 'b') ++
            'x' :: ('a' :: List.replicate 31 'b')))).write =
        some (rewriteFile true [('a' :: List.replicate 31 'b', 'c' :: List.replicate 31 'd')]
          (('c' :: List.replicate 31 'd') ++ ('a' :: List.replicate 31 'b') ++
            'x' :: ('a' :: List.replicate 31 'b'))) ∧
      ¬ OccursAt ('a' :: List.replicate 31 'b')
        (rewriteFile true [('a' :: List.replicate 31 'b', 'c' :: List.replicate 31 'd')]
          (('c' :: List.replicate 31 'd') ++ ('a' :: List.replicate 31 'b') ++
            'x' :: ('a' :: List.replicate 31 'b'))) 0 ∧
      countOcc ('c' :: List.replicate 31 'd')
          (rewriteFile true [('a' :: List.replicate 31 'b', 'c' :: List.replicate 31 'd')]
            (('c' :: List.replicate 31 'd') ++ ('a' :: List.replicate 31 'b') ++
              'x' :: ('a' :: List.replicate 31 'b'))) =
        countOcc ('c' :: List.replicate 31 'd')
            (('c' :: List.replicate 31 'd') ++ ('a' :: List.replicate 31 'b') ++
              'x' :: ('a' :: List.replicate 31 'b')) +
          countOcc ('a' :: List.replicate 31 'b')
            (('c' :: List.replicate 31 'd') ++ ('a' :: List.replicate 31 'b') ++
              'x' :: ('a' :: List.replicate 31 'b')) :=
  c1_substitution_completeness_amended [".png".toList]
    [('a' :: List.replicate 31 'b', 'c' :: List.replicate 31 'd')] "a.txt".toList
    (('c' :: List.replicate 31 'd') ++ ('a' :: List.replicate 31 'b') ++
      'x' :: ('a' :: List.replicate 31 'b'))
    ('a' :: List.replicate 31 'b', 'c' :: List.replicate 31 'd') 0
    (by decide) (by decide) (by simp)

/-! ### Claim C5 -/

/-- C5 counterexample: applying one entry does preserve the total length, but
it can destroy another entry's occurrence at a previously computed offset
when the identifiers overlap in the content: with `src = a c^31`,
`dst = d^32`, content `a c^32`, the other old identifier `c^32` occurs at
offset 1 before the rewrite and no longer does afterwards.  The claim, which
asserts offset validity with no aliasing precondition, is therefore false. -/
theorem c5_offset_stability_counterexample :
    ¬ (∀ (src dst c : List Char), src.length = dst.length →
        ((replaceAll src dst c).length = c.length ∧
          ∀ (pat : List Char) (p : Nat), pat ≠ src → OccursAt pat c p →
            OccursAt pat (replaceAll src dst c) p)) := by
  intro h
  have hc := (h ('a' :: List.replicate 31 'c') (List.replicate 32 'd')
    ('a' :: List.replicate 32 'c') (by decide)).2
    (List.replicate 32 'c') 1 (by decide) (by decide)
  exact absurd hc (by decide)

/-- C5 (amended): applying the substitutions of one mapping entry never
changes the content's total length (and hence a full apply-mode rewrite
leaves every file's length unchanged, given the builder's equal-length
entries); and the byte offsets of another entry's old-identifier occurrences
are exactly preserved provided the identifiers involved do not alias —
pairwise distinct and overlap-free — the caveat the counterexample forces. -/
theorem c5_length_and_offsets_amended (src dst pat c : List Char) (p : Nat)
    (m : List (List Char × List Char)) (hlen : dst.length = src.length)
    (hm : ∀ e ∈ m, e.2.length = e.1.length) (hsrc : src ≠ [])
    (hplen : pat.length = src.length) (hps : pat ≠ src) (hpd : pat ≠ dst)
    (hsp : NoOverlap src pat) (hpso : NoOverlap pat src)
    (hdp : NoOverlap dst pat) (hpdo : NoOverlap pat dst) :
    (replaceAll src dst c).length = c.length ∧
      (rewriteFile true m c).length = c.length ∧
      (OccursAt pat (replaceAll src dst c) p ↔ OccursAt pat c p) := by
  refine ⟨length_replaceAll src dst hlen c, ?_,
    occursAt_replaceAll_iff hsrc hlen hplen hps hpd hsp hpso hdp hpdo c p⟩
  rw [rewriteFile_true]
  exact length_applyEntries m hm c

/-- C5 witness. -/
theorem c5_length_and_offsets_amended_witness :
    (replaceAll ('a' :: List.replicate 31 'b') ('c' :: List.replicate 31 'd')
        (('e' :: List.replicate 31 'f') ++ ('a' :: List.replicate 31 'b'))).length =
        (('e' :: List.replicate 31 'f') ++ ('a' :: List.replicate 31 'b')).length ∧
      (rewriteFile true [('a' :: List.replicate 31 'b', 'c' :: List.replicate 31 'd')]
        (('e' :: List.replicate 31 'f') ++ ('a' :: List.replicate 31 'b'))).length =
        (('e' :: List.replicate 31 'f') ++ ('a' :: List.replicate 31 'b')).length ∧
      (OccursAt ('e' :: List.replicate 31 'f')
          (replaceAll ('a' :: List.replicate 31 'b') ('c' :: List.replicate 31 'd')
            (('e' :: List.replicate 31 'f') ++ ('a' :: List.replicate 31 'b'))) 0 ↔
        OccursAt ('e' :: List.replicate 31 'f')
          (('e' :: List.replicate 31 'f') ++ ('a' :: List.replicate 31 'b')) 0) :=
  c5_length_and_offsets_amended ('a' :: List.replicate 31 'b')
    ('c' :: List.replicate 31 'd') ('e' :: List.replicate 31 'f')
    (('e' :: List.replicate 31 'f') ++ ('a' :: List.replicate 31 'b')) 0
    [('a' :: List.replicate 31 'b', 'c' :: List.replicate 31 'd')]
    (by decide) (by decide) (by decide) (by decide) (by decide) (by decide)
    (by decide) (by decide) (by decide) (by decide)

/-! ### Byte-level safety of the in-place overwrite (claim C10)

The unsafe block of src/src/main.rs lines 163-169 overwrites the byte range
`n .. n + UUID_STR_LEN` of the `String` with `dst.as_bytes()`.  Rust's
`String` invariant is well-formed UTF-8, modelled here on byte lists. -/

/-- A UTF-8 continuation byte. -/
def IsContB (b : Nat) : Prop := 0x80 ≤ b ∧ b ≤ 0xBF

/-- Modelled from the spec: well-formed UTF-8, the invariant of the Rust
`String` the rewrite engine mutates in place (target files are read with
`read_to_string`, spec §6: arbitrary UTF-8 text files).  One constructor per
well-formed encoded scalar value, following the UTF-8 well-formedness
table. -/
inductive Utf8V : List Nat → Prop where
  | nil : Utf8V []
  | one {b : Nat} {rest : List Nat} : b < 0x80 → Utf8V rest → Utf8V (b :: rest)
  | two {b1 b2 : Nat} {rest : List Nat} : 0xC2 ≤ b1 → b1 ≤ 0xDF →
      IsContB b2 → Utf8V rest → Utf8V (b1 :: b2 :: rest)
  | three_e0 {b2 b3 : Nat} {rest : List Nat} : 0xA0 ≤ b2 → b2 ≤ 0xBF →
      IsContB b3 → Utf8V rest → Utf8V (0xE0 :: b2 :: b3 :: rest)
  | three_mid {b1 b2 b3 : Nat} {rest : List Nat} :
      (0xE1 ≤ b1 ∧ b1 ≤ 0xEC) ∨ (0xEE ≤ b1 ∧ b1 ≤ 0xEF) →
      IsContB b2 → IsContB b3 → Utf8V rest → Utf8V (b1 :: b2 :: b3 :: rest)
  | three_ed {b2 b3 : Nat} {rest : List Nat} : 0x80 ≤ b2 → b2 ≤ 0x9F →
      IsContB b3 → Utf8V rest → Utf8V (0xED :: b2 :: b3 :: rest)
  | four_f0 {b2 b3 b4 : Nat} {rest : List Nat} : 0x90 ≤ b2 → b2 ≤ 0xBF →
      IsContB b3 → IsContB b4 → Utf8V rest → Utf8V (0xF0 :: b2 :: b3 :: b4 :: rest)
  | four_mid {b1 b2 b3 b4 : Nat} {rest : List Nat} : 0xF1 ≤ b1 → b1 ≤ 0xF3 →
      IsContB b2 → IsContB b3 → IsContB b4 → Utf8V rest →
      Utf8V (b1 :: b2 :: b3 :: b4 :: rest)
  | four_f4 {b2 b3 b4 : Nat} {rest : List Nat} : 0x80 ≤ b2 → b2 ≤ 0x8F →
      IsContB b3 → IsContB b4 → Utf8V rest → Utf8V (0xF4 :: b2 :: b3 :: b4 :: rest)

/-- All bytes are ASCII (the compact identifiers are 32 ASCII hex bytes). -/
def AllAscii (xs : List Nat) : Prop := ∀ b ∈ xs, b < 0x80

instance (xs : List Nat) : Decidable (AllAscii xs) := by
  unfold AllAscii; infer_instance

/-- Rust's `str::is_char_boundary`: the index is the length, or the byte
there is not a continuation byte. -/
def IsCharBoundary (bs : List Nat) (i : Nat) : Prop :=
  i = bs.length ∨ ∃ b, bs.get? i = some b ∧ (b < 0x80 ∨ 0xC0 ≤ b)

/-- `s` occurs as a byte substring at offset `n` (what `match_indices`
reports at the byte level). -/
def OccursAtB (s bs : List Nat) (n : Nat) : Prop := s <+: bs.drop n

instance (s bs : List Nat) (n : Nat) : Decidable (OccursAtB s bs n) :=
  decidable_of_iff _ List.isPrefixOf_iff_prefix

/-- The in-place overwrite
`contents[n..(n + UUID_STR_LEN)].as_bytes_mut().copy_from_slice(dst.as_bytes())`
of src/src/main.rs lines 163-169, at byte level. -/
def writeAt (bs : List Nat) (n : Nat) (d2 : List Nat) : List Nat :=
  bs.take n ++ d2 ++ bs.drop (n + d2.length)

theorem utf8_of_allAscii : ∀ {xs : List Nat}, AllAscii xs → Utf8V xs := by
  intro xs
  induction xs with
  | nil => intro _; exact Utf8V.nil
  | cons x xs ih =>
    intro h
    exact Utf8V.one (h x (List.mem_cons_self x xs))
      (ih (fun b hb => h b (List.mem_cons_of_mem x hb)))

theorem utf8_boundary_one {xs : List Nat} (h : Utf8V xs) (x : Nat) :
    IsCharBoundary (x :: xs) 1 := by
  cases h with
  | nil => exact Or.inl rfl
  | one hb _ => exact Or.inr ⟨_, rfl, Or.inl hb⟩
  | two h1 h2 _ _ => exact Or.inr ⟨_, rfl, Or.inr (by omega)⟩
  | three_e0 _ _ _ _ => exact Or.inr ⟨_, rfl, Or.inr (by omega)⟩
  | three_mid hr _ _ _ =>
    refine Or.inr ⟨_, rfl, Or.inr ?_⟩
    rcases hr with ⟨h1, _⟩ | ⟨h1, _⟩ <;> omega
  | three_ed _ _ _ _ => exact Or.inr ⟨_, rfl, Or.inr (by omega)⟩
  | four_f0 _ _ _ _ _ => exact Or.inr ⟨_, rfl, Or.inr (by omega)⟩
  | four_mid h1 _ _ _ _ _ => exact Or.inr ⟨_, rfl, Or.inr (by omega)⟩
  | four_f4 _ _ _ _ _ => exact Or.inr ⟨_, rfl, Or.inr (by omega)⟩

theorem isCharBoundary_cons_succ {xs : List Nat} {i : Nat} (x : Nat)
    (h : IsCharBoundary xs i) : IsCharBoundary (x :: xs) (i + 1) := by
  cases h with
  | inl h => exact Or.inl (by simp [h])
  | inr h => exact Or.inr h

/-- In well-formed UTF-8, the position after an ASCII byte is a character
boundary. -/
theorem utf8_boundary_after_ascii {bs : List Nat} (h : Utf8V bs) :
    ∀ i b, bs.get? i = some b → b < 0x80 → IsCharBoundary bs (i + 1) := by
  induction h with
  | nil => intro i b hb _; simp at hb
  | one hb1 hrest ih =>
    intro i b hb hba
    cases i with
    | zero => exact utf8_boundary_one hrest _
    | succ i => exact isCharBoundary_cons_succ _ (ih i b hb hba)
  | two h1 h2 h3 hrest ih =>
    intro i b hb hba
    match i with
    | 0 => simp only [List.get?_cons_zero, Option.some_inj] at hb; omega
    | 1 =>
      simp only [List.get?_cons_succ, List.get?_cons_zero, Option.some_inj] at hb
      have := h3.1
      omega
    | Nat.succ (Nat.succ i) =>
      exact isCharBoundary_cons_succ _ (isCharBoundary_cons_succ _ (ih i b hb hba))
  | three_e0 h1 h2 h3 hrest ih =>
    intro i b hb hba
    match i with
    | 0 => simp only [List.get?_cons_zero, Option.some_inj] at hb; omega
    | 1 =>
      simp only [List.get?_cons_succ, List.get?_cons_zero, Option.some_inj] at hb
      omega
    | 2 =>
      simp only [List.get?_cons_succ, List.get?_cons_zero, Option.some_inj] at hb
      have := h3.1
      omega
    | Nat.succ (Nat.succ (Nat.succ i)) =>
      exact isCharBoundary_cons_succ _ (isCharBoundary_cons_succ _
        (isCharBoundary_cons_succ _ (ih i b hb hba)))
  | three_mid h1 h2 h3 hrest ih =>
    intro i b hb hba
    match i with
    | 0 =>
      simp only [List.get?_cons_zero, Option.some_inj] at hb
      rcases h1 with ⟨hl, _⟩ | ⟨hl, _⟩ <;> omega
    | 1 =>
      simp only [List.get?_cons_succ, List.get?_cons_zero, Option.some_inj] at hb
      have := h2.1
      omega
    | 2 =>
      simp only [List.get?_cons_succ, List.get?_cons_zero, Option.some_inj] at hb
      have := h3.1
      omega
    | Nat.succ (Nat.succ (Nat.succ i)) =>
      exact isCharBoundary_cons_succ _ (isCharBoundary_cons_succ _
        (isCharBoundary_cons_succ _ (ih i b hb hba)))
  | three_ed h1 h2 h3 hrest ih =>
    intro i b hb hba
    match i with
    | 0 => simp only [List.get?_cons_zero, Option.some_inj] at hb; omega
    | 1 =>
      simp only [List.get?_cons_succ, List.get?_cons_zero, Option.some_inj] at hb
      omega
    | 2 =>
      simp only [List.get?_cons_succ, List.get?_cons_zero, Option.some_inj] at hb
      have := h3.1
      omega
    | Nat.succ (Nat.succ (Nat.succ i)) =>
      exact isCharBoundary_cons_succ _ (isCharBoundary_cons_succ _
        (isCharBoundary_cons_succ _ (ih i b hb hba)))
  | four_f0 h1 h2 h3 h4 hrest ih =>
    intro i b hb hba
    match i with
    | 0 => simp only [List.get?_cons_zero, Option.some_inj] at hb; omega
    | 1 =>
      simp only [List.get?_cons_succ, List.get?_cons_zero, Option.some_inj] at hb
      omega
    | 2 =>
      simp only [List.get?_cons_succ, List.get?_cons_zero, Option.some_inj] at hb
      have := h3.1
      omega
    | 3 =>
      simp only [List.get?_cons_succ, List.get?_cons_zero, Option.some_inj] at hb
      have := h4.1
      omega
    | Nat.succ (Nat.succ (Nat.succ (Nat.succ i))) =>
      exact isCharBoundary_cons_succ _ (isCharBoundary_cons_succ _
        (isCharBoundary_cons_succ _ (isCharBoundary_cons_succ _ (ih i b hb hba))))
  | four_mid h1 h2 h3 h4 h5 hrest ih =>
    intro i b hb hba
    match i with
    | 0 => simp only [List.get?_cons_zero, Option.some_inj] at hb; omega
    | 1 =>
      simp only [List.get?_cons_succ, List.get?_cons_zero, Option.some_inj] at hb
      have := h3.1
      omega
    | 2 =>
      simp only [List.get?_cons_succ, List.get?_cons_zero, Option.some_inj] at hb
      have := h4.1
      omega
    | 3 =>
      simp only [List.get?_cons_succ, List.get?_cons_zero, Option.some_inj] at hb
      have := h5.1
      omega
    | Nat.succ (Nat.succ (Nat.succ (Nat.succ i))) =>
      exact isCharBoundary_cons_succ _ (isCharBoundary_cons_succ _
        (isCharBoundary_cons_succ _ (isCharBoundary_cons_succ _ (ih i b hb hba))))
  | four_f4 h1 h2 h3 h4 hrest ih =>
    intro i b hb hba
    match i with
    | 0 => simp only [List.get?_cons_zero, Option.some_inj] at hb; omega
    | 1 =>
      simp only [List.get?_cons_succ, List.get?_cons_zero, Option.some_inj] at hb
      omega
    | 2 =>
      simp only [List.get?_cons_succ, List.get?_cons_zero, Option.some_inj] at hb
      have := h3.1
      omega
    | 3 =>
      simp only [List.get?_cons_succ, List.get?_cons_zero, Option.some_inj] at hb
      have := h4.1
      omega
    | Nat.succ (Nat.succ (Nat.succ (Nat.succ i))) =>
      exact isCharBoundary_cons_succ _ (isCharBoundary_cons_succ _
        (isCharBoundary_cons_succ _ (isCharBoundary_cons_succ _ (ih i b hb hba))))

/-- Replacing an ASCII run that starts at an in-parse position by another
ASCII run of the same length preserves UTF-8 well-formedness. -/
theorem utf8_overwrite : ∀ {bs : List Nat}, Utf8V bs →
    ∀ (pre s d2 post : List Nat), bs = pre ++ (s ++ post) → AllAscii s →
      AllAscii d2 → d2.length = s.length → Utf8V (pre ++ (d2 ++ post)) := by
  intro bs h
  induction h with
  | nil =>
    intro pre s d2 post heq hs hd hl
    have h1 : pre = [] ∧ s ++ post = [] := List.append_eq_nil.mp heq.symm
    have h2 : s = [] ∧ post = [] := List.append_eq_nil.mp h1.2
    have h3 : d2 = [] := List.length_eq_zero.mp (by rw [hl, h2.1]; rfl)
    rw [h1.1, h3, h2.2]
    exact Utf8V.nil
  | one hb1 hrest ih =>
    rename_i b rest
    intro pre s d2 post heq hs hd hl
    cases pre with
    | nil =>
      simp only [List.nil_append] at heq ⊢
      cases s with
      | nil =>
        have h3 : d2 = [] := List.length_eq_zero.mp (by rw [hl]; rfl)
        subst h3
        simp only [List.nil_append] at heq ⊢
        exact heq ▸ Utf8V.one hb1 hrest
      | cons s0 s' =>
        rw [List.cons_append] at heq
        injection heq with e1 e2
        cases d2 with
        | nil => simp at hl
        | cons d0 d2' =>
          rw [List.cons_append]
          refine Utf8V.one (hd d0 (List.mem_cons_self _ _)) ?_
          have := ih [] s' d2' post (by simpa using e2)
            (fun x hx => hs x (List.mem_cons_of_mem s0 hx))
            (fun x hx => hd x (List.mem_cons_of_mem d0 hx)) (by simpa using hl)
          simpa using this
    | cons p0 pre' =>
      rw [List.cons_append] at heq
      injection heq with e1 e2
      rw [List.cons_append]
      exact e1 ▸ Utf8V.one hb1 (ih pre' s d2 post e2 hs hd hl)
  | two h1 h2 h3 hrest ih =>
    rename_i b1 b2 rest
    intro pre s d2 post heq hs hd hl
    match pre with
    | [] =>
      simp only [List.nil_append] at heq ⊢
      cases s with
      | nil =>
        have h4 : d2 = [] := List.length_eq_zero.mp (by rw [hl]; rfl)
        subst h4
        simp only [List.nil_append] at heq ⊢
        exact heq ▸ Utf8V.two h1 h2 h3 hrest
      | cons s0 s' =>
        rw [List.cons_append] at heq
        injection heq with e1 _
        have := hs s0 (List.mem_cons_self _ _)
        omega
    | [p0] =>
      simp only [List.cons_append, List.nil_append] at heq ⊢
      injection heq with e1 heq
      cases s with
      | nil =>
        have h4 : d2 = [] := List.length_eq_zero.mp (by rw [hl]; rfl)
        subst h4
        simp only [List.nil_append] at heq ⊢
        exact e1 ▸ heq ▸ Utf8V.two h1 h2 h3 hrest
      | cons s0 s' =>
        rw [List.cons_append] at heq
        injection heq with e2 _
        have := hs s0 (List.mem_cons_self _ _)
        have := h3.1
        omega
    | p0 :: p1 :: pre' =>
      simp only [List.cons_append] at heq ⊢
      injection heq with e1 heq
      injection heq with e2 heq
      exact e1 ▸ e2 ▸ Utf8V.two h1 h2 h3 (ih pre' s d2 post heq hs hd hl)
  | three_e0 h1 h2 h3 hrest ih =>
    rename_i b2 b3 rest
    intro pre s d2 post heq hs hd hl
    match pre with
    | [] =>
      simp only [List.nil_append] at heq ⊢
      cases s with
      | nil =>
        have h4 : d2 = [] := List.length_eq_zero.mp (by rw [hl]; rfl)
        subst h4
        simp only [List.nil_append] at heq ⊢
        exact heq ▸ Utf8V.three_e0 h1 h2 h3 hrest
      | cons s0 s' =>
        rw [List.cons_append] at heq
        injection heq with e1 _
        have := hs s0 (List.mem_cons_self _ _)
        omega
    | [p0] =>
      simp only [List.cons_append, List.nil_append] at heq ⊢
      injection heq with e1 heq
      cases s with
      | nil =>
        have h4 : d2 = [] := List.length_eq_zero.mp (by rw [hl]; rfl)
        subst h4
        simp only [List.nil_append] at heq ⊢
        exact e1 ▸ heq ▸ Utf8V.three_e0 h1 h2 h3 hrest
      | cons s0 s' =>
        rw [List.cons_append] at heq
        injection heq with e2 _
        have := hs s0 (List.mem_cons_self _ _)
        omega
    | [p0, p1] =>
      simp only [List.cons_append, List.nil_append] at heq ⊢
      injection heq with e1 heq
      injection heq with e2 heq
      cases s with
      | nil =>
        have h4 : d2 = [] := List.length_eq_zero.mp (by rw [hl]; rfl)
        subst h4
        simp only [List.nil_append] at heq ⊢
        exact e1 ▸ e2 ▸ heq ▸ Utf8V.three_e0 h1 h2 h3 hrest
      | cons s0 s' =>
        rw [List.cons_append] at heq
        injection heq with e3 _
        have := hs s0 (List.mem_cons_self _ _)
        have := h3.1
        omega
    | p0 :: p1 :: p2 :: pre' =>
      simp only [List.cons_append] at heq ⊢
      injection heq with e1 heq
      injection heq with e2 heq
      injection heq with e3 heq
      exact e1 ▸ e2 ▸ e3 ▸ Utf8V.three_e0 h1 h2 h3 (ih pre' s d2 post heq hs hd hl)
  | three_mid h1 h2 h3 hrest ih =>
    rename_i b1 b2 b3 rest
    intro pre s d2 post heq hs hd hl
    match pre with
    | [] =>
      simp only [List.nil_append] at heq ⊢
      cases s with
      | nil =>
        have h4 : d2 = [] := List.length_eq_zero.mp (by rw [hl]; rfl)
        subst h4
        simp only [List.nil_append] at heq ⊢
        exact heq ▸ Utf8V.three_mid h1 h2 h3 hrest
      | cons s0 s' =>
        rw [List.cons_append] at heq
        injection heq with e1 _
        have := hs s0 (List.mem_cons_self _ _)
        rcases h1 with ⟨hb, _⟩ | ⟨hb, _⟩ <;> omega
    | [p0] =>
      simp only [List.cons_append, List.nil_append] at heq ⊢
      injection heq with e1 heq
      cases s with
      | nil =>
        have h4 : d2 = [] := List.length_eq_zero.mp (by rw [hl]; rfl)
        subst h4
        simp only [List.nil_append] at heq ⊢
        exact e1 ▸ heq ▸ Utf8V.three_mid h1 h2 h3 hrest
      | cons s0 s' =>
        rw [List.cons_append] at heq
        injection heq with e2 _
        have := hs s0 (List.mem_cons_self _ _)
        have := h2.1
        omega
    | [p0, p1] =>
      simp only [List.cons_append, List.nil_append] at heq ⊢
      injection heq with e1 heq
      injection heq with e2 heq
      cases s with
      | nil =>
        have h4 : d2 = [] := List.length_eq_zero.mp (by rw [hl]; rfl)
        subst h4
        simp only [List.nil_append] at heq ⊢
        exact e1 ▸ e2 ▸ heq ▸ Utf8V.three_mid h1 h2 h3 hrest
      | cons s0 s' =>
        rw [List.cons_append] at heq
        injection heq with e3 _
        have := hs s0 (List.mem_cons_self _ _)
        have := h3.1
        omega
    | p0 :: p1 :: p2 :: pre' =>
      simp only [List.cons_append] at heq ⊢
      injection heq with e1 heq
      injection heq with e2 heq
      injection heq with e3 heq
      exact e1 ▸ e2 ▸ e3 ▸ Utf8V.three_mid h1 h2 h3 (ih pre' s d2 post heq hs hd hl)
  | three_ed h1 h2 h3 hrest ih =>
    rename_i b2 b3 rest
    intro pre s d2 post heq hs hd hl
    match pre with
    | [] =>
      simp only [List.nil_append] at heq ⊢
      cases s with
      | nil =>
        have h4 : d2 = [] := List.length_eq_zero.mp (by rw [hl]; rfl)
        subst h4
        simp only [List.nil_append] at heq ⊢
        exact heq ▸ Utf8V.three_ed h1 h2 h3 hrest
      | cons s0 s' =>
        rw [List.cons_append] at heq
        injection heq with e1 _
        have := hs s0 (List.mem_cons_self _ _)
        omega
    | [p0] =>
      simp only [List.cons_append, List.nil_append] at heq ⊢
      injection heq with e1 heq
      cases s with
      | nil =>
        have h4 : d2 = [] := List.length_eq_zero.mp (by rw [hl]; rfl)
        subst h4
        simp only [List.nil_append] at heq ⊢
        exact e1 ▸ heq ▸ Utf8V.three_ed h1 h2 h3 hrest
      | cons s0 s' =>
        rw [List.cons_append] at heq
        injection heq with e2 _
        have := hs s0 (List.mem_cons_self _ _)
        omega
    | [p0, p1] =>
      simp only [List.cons_append, List.nil_append] at heq ⊢
      injection heq with e1 heq
      injection heq with e2 heq
      cases s with
      | nil =>
        have h4 : d2 = [] := List.length_eq_zero.mp (by rw [hl]; rfl)
        subst h4
        simp only [List.nil_append] at heq ⊢
        exact e1 ▸ e2 ▸ heq ▸ Utf8V.three_ed h1 h2 h3 hrest
      | cons s0 s' =>
        rw [List.cons_append] at heq
        injection heq with e3 _
        have := hs s0 (List.mem_cons_self _ _)
        have := h3.1
        omega
    | p0 :: p1 :: p2 :: pre' =>
      simp only [List.cons_append] at heq ⊢
      injection heq with e1 heq
      injection heq with e2 heq
      injection heq with e3 heq
      exact e1 ▸ e2 ▸ e3 ▸ Utf8V.three_ed h1 h2 h3 (ih pre' s d2 post heq hs hd hl)
  | four_f0 h1 h2 h3 h4 hrest ih =>
    rename_i b2 b3 b4 rest
    intro pre s d2 post heq hs hd hl
    match pre with
    | [] =>
      simp only [List.nil_append] at heq ⊢
      cases s with
      | nil =>
        have h5 : d2 = [] := List.length_eq_zero.mp (by rw [hl]; rfl)
        subst h5
        simp only [List.nil_append] at heq ⊢
        exact heq ▸ Utf8V.four_f0 h1 h2 h3 h4 hrest
      | cons s0 s' =>
        rw [List.cons_append] at heq
        injection heq with e1 _
        have := hs s0 (List.mem_cons_self _ _)
        omega
    | [p0] =>
      simp only [List.cons_append, List.nil_append] at heq ⊢
      injection heq with e1 heq
      cases s with
      | nil =>
        have h5 : d2 = [] := List.length_eq_zero.mp (by rw [hl]; rfl)
        subst h5
        simp only [List.nil_append] at heq ⊢
        exact e1 ▸ heq ▸ Utf8V.four_f0 h1 h2 h3 h4 hrest
      | cons s0 s' =>
        rw [List.cons_append] at heq
        injection heq with e2 _
        have := hs s0 (List.mem_cons_self _ _)
        omega
    | [p0, p1] =>
      simp only [List.cons_append, List.nil_append] at heq ⊢
      injection heq with e1 heq
      injection heq with e2 heq
      cases s with
      | nil =>
        have h5 : d2 = [] := List.length_eq_zero.mp (by rw [hl]; rfl)
        subst h5
        simp only [List.nil_append] at heq ⊢
        exact e1 ▸ e2 ▸ heq ▸ Utf8V.four_f0 h1 h2 h3 h4 hrest
      | cons s0 s' =>
        rw [List.cons_append] at heq
        injection heq with e3 _
        have := hs s0 (List.mem_cons_self _ _)
        have := h3.1
        omega
    | [p0, p1, p2] =>
      simp only [List.cons_append, List.nil_append] at heq ⊢
      injection heq with e1 heq
      injection heq with e2 heq
      injection heq with e3 heq
      cases s with
      | nil =>
        have h5 : d2 = [] := List.length_eq_zero.mp (by rw [hl]; rfl)
        subst h5
        simp only [List.nil_append] at heq ⊢
        exact e1 ▸ e2 ▸ e3 ▸ heq ▸ Utf8V.four_f0 h1 h2 h3 h4 hrest
      | cons s0 s' =>
        rw [List.cons_append] at heq
        injection heq with e4 _
        have := hs s0 (List.mem_cons_self _ _)
        have := h4.1
        omega
    | p0 :: p1 :: p2 :: p3 :: pre' =>
      simp only [List.cons_append] at heq ⊢
      injection heq with e1 heq
      injection heq with e2 heq
      injection heq with e3 heq
      injection heq with e4 heq
      exact e1 ▸ e2 ▸ e3 ▸ e4 ▸ Utf8V.four_f0 h1 h2 h3 h4
        (ih pre' s d2 post heq hs hd hl)
  | four_mid h1 h2 h3 h4 h5 hrest ih =>
    rename_i b1 b2 b3 b4 rest
    intro pre s d2 post heq hs hd hl
    match pre with
    | [] =>
      simp only [List.nil_append] at heq ⊢
      cases s with
      | nil =>
        have h6 : d2 = [] := List.length_eq_zero.mp (by rw [hl]; rfl)
        subst h6
        simp only [List.nil_append] at heq ⊢
        exact heq ▸ Utf8V.four_mid h1 h2 h3 h4 h5 hrest
      | cons s0 s' =>
        rw [List.cons_append] at heq
        injection heq with e1 _
        have := hs s0 (List.mem_cons_self _ _)
        omega
    | [p0] =>
      simp only [List.cons_append, List.nil_append] at heq ⊢
      injection heq with e1 heq
      cases s with
      | nil =>
        have h6 : d2 = [] := List.length_eq_zero.mp (by rw [hl]; rfl)
        subst h6
        simp only [List.nil_append] at heq ⊢
        exact e1 ▸ heq ▸ Utf8V.four_mid h1 h2 h3 h4 h5 hrest
      | cons s0 s' =>
        rw [List.cons_append] at heq
        injection heq with e2 _
        have := hs s0 (List.mem_cons_self _ _)
        have := h3.1
        omega
    | [p0, p1] =>
      simp only [List.cons_append, List.nil_append] at heq ⊢
      injection heq with e1 heq
      injection heq with e2 heq
      cases s with
      | nil =>
        have h6 : d2 = [] := List.length_eq_zero.mp (by rw [hl]; rfl)
        subst h6
        simp only [List.nil_append] at heq ⊢
        exact e1 ▸ e2 ▸ heq ▸ Utf8V.four_mid h1 h2 h3 h4 h5 hrest
      | cons s0 s' =>
        rw [List.cons_append] at heq
        injection heq with e3 _
        have := hs s0 (List.mem_cons_self _ _)
        have := h4.1
        omega
    | [p0, p1, p2] =>
      simp only [List.cons_append, List.nil_append] at heq ⊢
      injection heq with e1 heq
      injection heq with e2 heq
      injection heq with e3 heq
      cases s with
      | nil =>
        have h6 : d2 = [] := List.length_eq_zero.mp (by rw [hl]; rfl)
        subst h6
        simp only [List.nil_append] at heq ⊢
        exact e1 ▸ e2 ▸ e3 ▸ heq ▸ Utf8V.four_mid h1 h2 h3 h4 h5 hrest
      | cons s0 s' =>
        rw [List.cons_append] at heq
        injection heq with e4 _
        have := hs s0 (List.mem_cons_self _ _)
        have := h5.1
        omega
    | p0 :: p1 :: p2 :: p3 :: pre' =>
      simp only [List.cons_append] at heq ⊢
      injection heq with e1 heq
      injection heq with e2 heq
      injection heq with e3 heq
      injection heq with e4 heq
      exact e1 ▸ e2 ▸ e3 ▸ e4 ▸ Utf8V.four_mid h1 h2 h3 h4 h5
        (ih pre' s d2 post heq hs hd hl)
  | four_f4 h1 h2 h3 h4 hrest ih =>
    rename_i b2 b3 b4 rest
    intro pre s d2 post heq hs hd hl
    match pre with
    | [] =>
      simp only [List.nil_append] at heq ⊢
      cases s with
      | nil =>
        have h5 : d2 = [] := List.length_eq_zero.mp (by rw [hl]; rfl)
        subst h5
        simp only [List.nil_append] at heq ⊢
        exact heq ▸ Utf8V.four_f4 h1 h2 h3 h4 hrest
      | cons s0 s' =>
        rw [List.cons_append] at heq
        injection heq with e1 _
        have := hs s0 (List.mem_cons_self _ _)
        omega
    | [p0] =>
      simp only [List.cons_append, List.nil_append] at heq ⊢
      injection heq with e1 heq
      cases s with
      | nil =>
        have h5 : d2 = [] := List.length_eq_zero.mp (by rw [hl]; rfl)
        subst h5
        simp only [List.nil_append] at heq ⊢
        exact e1 ▸ heq ▸ Utf8V.four_f4 h1 h2 h3 h4 hrest
      | cons s0 s' =>
        rw [List.cons_append] at heq
        injection heq with e2 _
        have := hs s0 (List.mem_cons_self _ _)
        omega
    | [p0, p1] =>
      simp only [List.cons_append, List.nil_append] at heq ⊢
      injection heq with e1 heq
      injection heq with e2 heq
      cases s with
      | nil =>
        have h5 : d2 = [] := List.length_eq_zero.mp (by rw [hl]; rfl)
        subst h5
        simp only [List.nil_append] at heq ⊢
        exact e1 ▸ e2 ▸ heq ▸ Utf8V.four_f4 h1 h2 h3 h4 hrest
      | cons s0 s' =>
        rw [List.cons_append] at heq
        injection heq with e3 _
        have := hs s0 (List.mem_cons_self _ _)
        have := h3.1
        omega
    | [p0, p1, p2] =>
      simp only [List.cons_append, List.nil_append] at heq ⊢
      injection heq with e1 heq
      injection heq with e2 heq
      injection heq with e3 heq
      cases s with
      | nil =>
        have h5 : d2 = [] := List.length_eq_zero.mp (by rw [hl]; rfl)
        subst h5
        simp only [List.nil_append] at heq ⊢
        exact e1 ▸ e2 ▸ e3 ▸ heq ▸ Utf8V.four_f4 h1 h2 h3 h4 hrest
      | cons s0 s' =>
        rw [List.cons_append] at heq
        injection heq with e4 _
        have := hs s0 (List.mem_cons_self _ _)
        have := h4.1
        omega
    | p0 :: p1 :: p2 :: p3 :: pre' =>
      simp only [List.cons_append] at heq ⊢
      injection heq with e1 heq
      injection heq with e2 heq
      injection heq with e3 heq
      injection heq with e4 heq
      exact e1 ▸ e2 ▸ e3 ▸ e4 ▸ Utf8V.four_f4 h1 h2 h3 h4
        (ih pre' s d2 post heq hs hd hl)

/-- C10: the in-place byte overwrite is in bounds and UTF-8-safe: at every
offset `n` reported by the substring search for a 32-byte ASCII old
identifier in well-formed UTF-8 contents, `n + 32` does not exceed the byte
length, both `n` and `n + 32` are character boundaries, and overwriting
those 32 bytes with 32 ASCII bytes leaves the contents well-formed
UTF-8. -/
theorem c10_inplace_overwrite_safe (bs s d2 : List Nat) (n : Nat)
    (hv : Utf8V bs) (hocc : OccursAtB s bs n)
    (hs : AllAscii s) (hslen : s.length = UUID_STR_LEN)
    (hd : AllAscii d2) (hdlen : d2.length = UUID_STR_LEN) :
    n + UUID_STR_LEN ≤ bs.length ∧ IsCharBoundary bs n ∧
      IsCharBoundary bs (n + UUID_STR_LEN) ∧ Utf8V (writeAt bs n d2) := by
  have hL : UUID_STR_LEN = 32 := rfl
  rw [hL] at hslen hdlen ⊢
  obtain ⟨t, ht⟩ := hocc
  have hlen1 : 32 ≤ (bs.drop n).length := by
    rw [← ht, List.length_append, hslen]
    omega
  have hlen2 : (bs.drop n).length = bs.length - n := List.length_drop n bs
  have hn32 : n + 32 ≤ bs.length := by omega
  refine ⟨hn32, ?_, ?_, ?_⟩
  · cases hsc : s with
    | nil => rw [hsc] at hslen; simp at hslen
    | cons s0 s' =>
      have hget : bs.get? n = some s0 := by
        have h1 : (bs.drop n).get? 0 = bs.get? (n + 0) := List.get?_drop bs n 0
        rw [← ht, hsc] at h1
        simpa using h1.symm
      exact Or.inr ⟨s0, hget, Or.inl (hs s0 (by rw [hsc]; exact List.mem_cons_self _ _))⟩
  · have h31lt : 31 < s.length := by omega
    have h31 : s.get? 31 = some (s.get ⟨31, h31lt⟩) := List.get?_eq_get h31lt
    have hget : bs.get? (n + 31) = some (s.get ⟨31, h31lt⟩) := by
      have h1 : (bs.drop n).get? 31 = bs.get? (n + 31) := List.get?_drop bs n 31
      rw [← ht] at h1
      rw [← h1, List.get?_append h31lt, h31]
    have hascii : s.get ⟨31, h31lt⟩ < 0x80 := hs _ (List.get_mem s 31 h31lt)
    have hb := utf8_boundary_after_ascii hv (n + 31) _ hget hascii
    have he : n + 31 + 1 = n + 32 := by omega
    rwa [he] at hb
  · have hts : t = bs.drop (n + 32) := by
      have h1 : (bs.drop n).drop 32 = bs.drop (n + 32) := List.drop_drop 32 n bs
      rw [← ht] at h1
      rw [← h1, List.drop_left' hslen]
    have hdecomp : bs = bs.take n ++ (s ++ bs.drop (n + 32)) := by
      conv_lhs => rw [← List.take_append_drop n bs]
      rw [← ht, hts]
    have hres := utf8_overwrite hv (bs.take n) s d2 (bs.drop (n + 32)) hdecomp hs hd
      (hdlen.trans hslen.symm)
    unfold writeAt
    rw [hdlen, List.append_assoc]
    exact hres

/-- C10 witness: an ASCII file of 34 bytes with the 32-byte identifier at
offset 1, rewritten by 32 other ASCII bytes. -/
theorem c10_inplace_overwrite_safe_witness :
    1 + UUID_STR_LEN ≤ (0x41 :: (List.replicate 32 0x61 ++ [0x42])).length ∧
      IsCharBoundary (0x41 :: (List.replicate 32 0x61 ++ [0x42])) 1 ∧
      IsCharBoundary (0x41 :: (List.replicate 32 0x61 ++ [0x42])) (1 + UUID_STR_LEN) ∧
      Utf8V (writeAt (0x41 :: (List.replicate 32 0x61 ++ [0x42])) 1
        (List.replicate 32 0x62)) :=
  c10_inplace_overwrite_safe (0x41 :: (List.replicate 32 0x61 ++ [0x42]))
    (List.replicate 32 0x61) (List.replicate 32 0x62) 1
    (utf8_of_allAscii (by decide)) (by decide) (by decide) (by decide)
    (by decide) (by decide)

end GuidRewriter
